import Mathlib

/-!
Verification of the streaming JSON printer in
`src/crates/cli/src/print/json_print.rs` (crate `ast-grep-cli`).

The printer is embedded shallowly:
* the output sink (`Mutex<W>` with `W: Write`) becomes an accumulated
  `String` field; a successful write appends to it;
* the `AtomicBool` flag `matched` becomes a `Bool` field; the
  `swap(true, AcqRel)` becomes "read the field, set it to `true`";
* the whole body of `print_docs` runs under the mutex, so a concurrent
  execution of several batches is modelled by the set of its
  serialisations (one `print_docs` call after the other, in some order);
* fallible writes (`writeln!`/`to_writer_pretty` returning `io::Result`)
  are modelled by a second family of functions threaded through a
  failure script: a list of booleans, one per write call, `false`
  meaning that the write fails and the enclosing call returns early
  with an error (the `?` operator).
-/

namespace AstGrep

/-- State of `JSONPrinter<W>`: the bytes written to the sink so far and
the `matched: AtomicBool` field. -/
structure JSONPrinter where
  output : String
  matched : Bool
deriving Repr, DecidableEq

/-- `JSONPrinter::new` — empty sink, `matched` starts `false`. -/
def JSONPrinter.new : JSONPrinter :=
  { output := "", matched := false }

/-- The `for doc in docs` loop at the end of `print_docs`: for every
remaining doc, `writeln!(lock, ",")` (which emits `",\n"`) and then the
pretty-printed doc. -/
def printDocsLoop (render : α → String) (docs : List α) : String :=
  match docs with
  | [] => ""
  | doc :: rest => ",\n" ++ render doc ++ printDocsLoop render rest

/-- `JSONPrinter::print_docs` (success path).  `render` plays the role of
`serde_json::to_writer_pretty` for the element type `S: Serialize`.
Mirrors the source: peek for emptiness, swap `matched` to `true`
capturing the prior value, and if the prior value was `false` write a
bare newline followed by the first doc; every doc not consumed by that
branch goes through the `for` loop. -/
def print_docs (render : α → String) (p : JSONPrinter) (docs : List α) : JSONPrinter :=
  match docs with
  | [] => p
  | doc :: rest =>
    let matchedPrior := p.matched
    if !matchedPrior then
      { matched := true
        output := p.output ++ "\n" ++ render doc ++ printDocsLoop render rest }
    else
      { matched := true
        output := p.output ++ printDocsLoop render (doc :: rest) }

/-- `JSONPrinter::before_print`: write the opening bracket. -/
def before_print (p : JSONPrinter) : JSONPrinter :=
  { p with output := p.output ++ "[" }

/-- `JSONPrinter::after_print`: if `matched` holds write a newline, then
`writeln!(lock, "]")`, i.e. the closing bracket followed by a newline. -/
def after_print (p : JSONPrinter) : JSONPrinter :=
  if p.matched then
    { p with output := p.output ++ "\n" ++ "]" ++ "\n" }
  else
    { p with output := p.output ++ "]" ++ "\n" }

/-! ### Fallible writes

`WriteOutcome` is the result of running a printer operation against a
failure script: the printer state reached, the unconsumed part of the
script, and whether the operation returned `Ok`.  A failing write is
modelled as writing nothing (the claims under study only depend on the
flag and on the separator of the following batch, not on how many bytes
a failing `write` managed to emit). -/
structure WriteOutcome where
  printer : JSONPrinter
  script : List Bool
  ok : Bool
deriving Repr, DecidableEq

/-- One write call against the failure script: an exhausted script means
every remaining write succeeds. -/
def writeF (p : JSONPrinter) (s : String) (script : List Bool) : WriteOutcome :=
  match script with
  | [] => ⟨{ p with output := p.output ++ s }, [], true⟩
  | b :: rest =>
    if b then ⟨{ p with output := p.output ++ s }, rest, true⟩
    else ⟨p, rest, false⟩

/-- The `for` loop of `print_docs` with fallible writes: each iteration
performs two write calls (`",\n"` and the rendered doc), aborting on the
first failure. -/
def printDocsLoopF (render : α → String) (p : JSONPrinter) (docs : List α)
    (script : List Bool) : WriteOutcome :=
  match docs with
  | [] => ⟨p, script, true⟩
  | doc :: rest =>
    let o1 := writeF p ",\n" script
    if o1.ok then
      let o2 := writeF o1.printer (render doc) o1.script
      if o2.ok then printDocsLoopF render o2.printer rest o2.script
      else o2
    else o1

/-- `print_docs` with fallible writes.  The empty check happens before
any write and before touching `matched`; the swap of `matched` happens
before the first write, so the flag is set even when a later write
fails. -/
def print_docsF (render : α → String) (p : JSONPrinter) (docs : List α)
    (script : List Bool) : WriteOutcome :=
  match docs with
  | [] => ⟨p, script, true⟩
  | doc :: rest =>
    let matchedPrior := p.matched
    let p1 : JSONPrinter := { p with matched := true }
    if !matchedPrior then
      let o1 := writeF p1 "\n" script
      if o1.ok then
        let o2 := writeF o1.printer (render doc) o1.script
        if o2.ok then printDocsLoopF render o2.printer rest o2.script
        else o2
      else o1
    else
      printDocsLoopF render p1 (doc :: rest) script

/-- Sequential run: `before_print`, then one `print_docs` call per batch. -/
def runBatches (render : α → String) (p : JSONPrinter) (batches : List (List α)) :
    JSONPrinter :=
  match batches with
  | [] => p
  | b :: rest => runBatches render (print_docs render p b) rest

/-! ### Data model

`Position`, `Range`, `MatchNode`, `MatchJSON`, `RuleMatchJSON` and the
extraction functions are translated from `json_print.rs`.  The
collaborator types (`Node`, `NodeMatch`, `MetaVariable`, the binding
environment, `RuleConfig`, `Diff`) live in other crates of the
repository, outside the file under study, and are modelled from the
spec where noted. -/

/-- `Position { line, column }`. -/
structure Position where
  line : Nat
  column : Nat
deriving Repr, DecidableEq

/-- `std::ops::Range<usize>`, the type of the `byte_offset` field:
inclusive start, exclusive end. -/
structure ByteOffset where
  start : Nat
  «end» : Nat
deriving Repr, DecidableEq

/-- `Range { byte_offset, start, end }`. -/
structure Range where
  byte_offset : ByteOffset
  start : Position
  «end» : Position
deriving Repr, DecidableEq

/-- Modelled from the spec: a located node of the matching engine
(`Node` in `ast-grep-core`, not under `src/`): a read-only view of a
located snippet carrying its text, its inclusive-start/exclusive-end
byte interval, and its start/end line-column pairs (spec §3 "TextNode"
and §4.1 span/position model). -/
structure Node where
  text : String
  rangeStart : Nat
  rangeEnd : Nat
  startLine : Nat
  startColumn : Nat
  endLine : Nat
  endColumn : Nat
deriving Repr, DecidableEq

/-- `Node::range` — the byte interval. -/
def Node.range (n : Node) : ByteOffset := ⟨n.rangeStart, n.rangeEnd⟩

/-- `Node::start_pos` — `(line, column)` of the start. -/
def Node.start_pos (n : Node) : Nat × Nat := (n.startLine, n.startColumn)

/-- `Node::end_pos` — `(line, column)` of the end. -/
def Node.end_pos (n : Node) : Nat × Nat := (n.endLine, n.endColumn)

/-- Modelled from the spec: the variable descriptors enumerated from a
match's binding environment (`MetaVariable` in `ast-grep-core`, not
under `src/`): named-single, named-multi (ellipsis), and
anonymous/positional variants, the latter never surfaced (spec §4.2
step 2). -/
inductive MetaVariable where
  | Named (name : String) (required : Bool)
  | NamedEllipsis (name : String)
  | Anonymous (required : Bool)
  | Ellipsis
deriving Repr, DecidableEq

/-- Modelled from the spec: the binding environment (`MetaVarEnv` in
`ast-grep-core`, not under `src/`), an opaque capability exposing:
iterate bound variable descriptors; fetch the single node for a named
variable; fetch the ordered node list for a named multi-variable; look
up the labels of a category (spec §4.2 input and §4.3).  Maps are
association lists. -/
structure MetaVarEnv where
  matchedVariables : List MetaVariable
  singleMatched : List (String × Node)
  multiMatched : List (String × List Node)
  labelsMap : List (String × List Node)
deriving Repr, DecidableEq

/-- `MetaVarEnv::get_matched_variables`. -/
def MetaVarEnv.get_matched_variables (env : MetaVarEnv) : List MetaVariable :=
  env.matchedVariables

/-- `MetaVarEnv::get_match`. -/
def MetaVarEnv.get_match (env : MetaVarEnv) (name : String) : Option Node :=
  env.singleMatched.lookup name

/-- `MetaVarEnv::get_multiple_matches` (an unbound name yields the
empty list). -/
def MetaVarEnv.get_multiple_matches (env : MetaVarEnv) (name : String) : List Node :=
  (env.multiMatched.lookup name).getD []

/-- `MetaVarEnv::get_labels`. -/
def MetaVarEnv.get_labels (env : MetaVarEnv) (category : String) : Option (List Node) :=
  env.labelsMap.lookup category

/-- Modelled from the spec: a match result of the engine (`NodeMatch`
in `ast-grep-core`, not under `src/`): the matched node (to which a
`NodeMatch` dereferences), its binding environment, and the language
tag, kept abstract as its serialized string (spec §6). -/
structure NodeMatch where
  node : Node
  env : MetaVarEnv
  lang : String
deriving Repr, DecidableEq

/-- `NodeMatch` dereferences to its node; `text()` is the matched
text. -/
def NodeMatch.text (nm : NodeMatch) : String := nm.node.text

/-- `NodeMatch::get_env`. -/
def NodeMatch.get_env (nm : NodeMatch) : MetaVarEnv := nm.env

/-- `get_range`. -/
def get_range (n : Node) : Range :=
  { byte_offset := n.range
    start := { line := n.start_pos.1, column := n.start_pos.2 }
    «end» := { line := n.end_pos.1, column := n.end_pos.2 } }

/-- `MatchNode { text, range }`. -/
structure MatchNode where
  text : String
  range : Range
deriving Repr, DecidableEq

/-- `MetaVariables { single, multi }` (the two `HashMap`s as
association lists, in insertion order). -/
structure MetaVariables where
  single : List (String × MatchNode)
  multi : List (String × List MatchNode)
deriving Repr, DecidableEq

/-- `HashMap::insert` on the association-list model: replace the value
bound to an existing key, otherwise append the new binding. -/
def insertAssoc (l : List (String × β)) (k : String) (v : β) : List (String × β) :=
  match l with
  | [] => [(k, v)]
  | (k', v') :: rest =>
    if k' = k then (k, v) :: rest else (k', v') :: insertAssoc rest k v

/-- The `for var in vars` loop of `from_env`, accumulating the `single`
and `multi` maps; the `.expect("must exist!")` panic is made explicit
as `Except.error`. -/
def fromEnvLoop (env : MetaVarEnv) (vars : List MetaVariable)
    (single : List (String × MatchNode)) (multi : List (String × List MatchNode)) :
    Except String (List (String × MatchNode) × List (String × List MatchNode)) :=
  match vars with
  | [] => .ok (single, multi)
  | var :: rest =>
    match var with
    | .Named n _ =>
      match env.get_match n with
      | none => .error "must exist!"
      | some node =>
        fromEnvLoop env rest
          (insertAssoc single n { text := node.text, range := get_range node }) multi
    | .NamedEllipsis n =>
      let nodes := env.get_multiple_matches n
      fromEnvLoop env rest single
        (insertAssoc multi n
          (nodes.map fun node => { text := node.text, range := get_range node }))
    | .Anonymous _ => fromEnvLoop env rest single multi
    | .Ellipsis => fromEnvLoop env rest single multi

/-- `from_env`: `vars.peek()?` returns `none` (no `metaVariables`
field) on an empty descriptor iterator; otherwise both maps are
accumulated over all descriptors. -/
def from_env (nm : NodeMatch) : Except String (Option MetaVariables) :=
  if nm.get_env.get_matched_variables.isEmpty then .ok none
  else
    (fromEnvLoop nm.get_env nm.get_env.get_matched_variables [] []).map fun sm =>
      some { single := sm.1, multi := sm.2 }

/-- `MatchJSON` (the `replacement` and `meta_variables` fields are
skipped during serialization when `none`). -/
structure MatchJSON where
  text : String
  range : Range
  file : String
  replacement : Option String
  language : String
  meta_variables : Option MetaVariables
deriving Repr, DecidableEq

/-- `MatchJSON::new` (a panic inside `from_env` propagates). -/
def MatchJSON.new (nm : NodeMatch) (path : String) : Except String MatchJSON :=
  (from_env nm).map fun mv =>
    { file := path
      text := nm.text
      language := nm.lang
      replacement := none
      range := get_range nm.node
      meta_variables := mv }

/-- `get_labels`: look up the fixed `"secondary"` category. -/
def get_labels (nm : NodeMatch) : Option (List MatchNode) :=
  match nm.get_env.get_labels "secondary" with
  | none => none
  | some labels =>
    some (labels.map fun l => { text := l.text, range := get_range l })

/-- Modelled from the spec: the rule-configuration collaborator
(`RuleConfig` in `ast-grep-config`, not under `src/`): a rule
identifier, a severity kept abstract as its serialized string, and a
method rendering a human message for a given match (spec §6). -/
structure RuleConfig where
  id : String
  severity : String
  get_message : NodeMatch → String

/-- `RuleMatchJSON` (`matched` is flattened during serialization;
`labels` is skipped when `none`). -/
structure RuleMatchJSON where
  matched : MatchJSON
  rule_id : String
  severity : String
  message : String
  labels : Option (List MatchNode)
deriving Repr

/-- `RuleMatchJSON::new`. -/
def RuleMatchJSON.new (nm : NodeMatch) (path : String) (rule : RuleConfig) :
    Except String RuleMatchJSON :=
  let message := rule.get_message nm
  let labels := get_labels nm
  (MatchJSON.new nm path).map fun matched =>
    { matched := matched
      rule_id := rule.id
      severity := rule.severity
      message := message
      labels := labels }

/-- Modelled from the spec: a diff result (`Diff` in the printer
module, not under `src/`): a match together with its replacement text
(spec §6). -/
structure Diff where
  node_match : NodeMatch
  replacement : String
deriving Repr, DecidableEq

/-! ### UTF-8 and `Path::to_string_lossy`

Paths are byte lists; `to_string_lossy` is Rust's
`String::from_utf8_lossy` applied to them. -/

/-- UTF-8 encoding of one scalar value. -/
def utf8EncodeChar (c : Char) : List Nat :=
  let n := c.toNat
  if n < 0x80 then [n]
  else if n < 0x800 then [0xC0 + n / 64, 0x80 + n % 64]
  else if n < 0x10000 then
    [0xE0 + n / 4096, 0x80 + n / 64 % 64, 0x80 + n % 64]
  else
    [0xF0 + n / 262144, 0x80 + n / 4096 % 64, 0x80 + n / 64 % 64, 0x80 + n % 64]

/-- UTF-8 encoding of a string. -/
def utf8Encode (s : List Char) : List Nat := (s.map utf8EncodeChar).flatten

/-- The replacement character U+FFFD. -/
def replacementChar : Char := Char.ofNat 0xFFFD

/-- Is `b` a UTF-8 continuation byte (`0x80..=0xBF`)? -/
abbrev isCont (b : Nat) : Prop := 0x80 ≤ b ∧ b < 0xC0

/-- Validity of the second byte of a 3-byte sequence headed by `b0`:
`0xE0` requires `0xA0..=0xBF` (no overlong forms), `0xED` requires
`0x80..=0x9F` (no surrogates). -/
abbrev valid3Second (b0 b1 : Nat) : Prop :=
  if b0 = 0xE0 then 0xA0 ≤ b1 ∧ b1 < 0xC0
  else if b0 = 0xED then 0x80 ≤ b1 ∧ b1 < 0xA0
  else isCont b1

/-- Validity of the second byte of a 4-byte sequence headed by `b0`:
`0xF0` requires `0x90..=0xBF` (no overlong forms), `0xF4` requires
`0x80..=0x8F` (scalar values stop at `0x10FFFF`). -/
abbrev valid4Second (b0 b1 : Nat) : Prop :=
  if b0 = 0xF0 then 0x90 ≤ b1 ∧ b1 < 0xC0
  else if b0 = 0xF4 then 0x80 ≤ b1 ∧ b1 < 0x90
  else isCont b1

/-- Decode one character: the byte `b0` followed by `rest`.  Returns
the decoded character (U+FFFD for an invalid sequence) and how many
bytes of `rest` were consumed — for an invalid sequence, the maximal
valid prefix minus the leading byte, matching the maximal-subpart
substitution of `String::from_utf8_lossy`. -/
def utf8DecodeStep (b0 : Nat) (rest : List Nat) : Char × Nat :=
  if b0 < 0x80 then (Char.ofNat b0, 0)
  else if 0xC2 ≤ b0 ∧ b0 ≤ 0xDF then
    match rest with
    | b1 :: _ =>
      if isCont b1 then (Char.ofNat ((b0 - 0xC0) * 64 + (b1 - 0x80)), 1)
      else (replacementChar, 0)
    | [] => (replacementChar, 0)
  else if 0xE0 ≤ b0 ∧ b0 ≤ 0xEF then
    match rest with
    | b1 :: rest1 =>
      if valid3Second b0 b1 then
        match rest1 with
        | b2 :: _ =>
          if isCont b2 then
            (Char.ofNat ((b0 - 0xE0) * 4096 + (b1 - 0x80) * 64 + (b2 - 0x80)), 2)
          else (replacementChar, 1)
        | [] => (replacementChar, 1)
      else (replacementChar, 0)
    | [] => (replacementChar, 0)
  else if 0xF0 ≤ b0 ∧ b0 ≤ 0xF4 then
    match rest with
    | b1 :: rest1 =>
      if valid4Second b0 b1 then
        match rest1 with
        | b2 :: rest2 =>
          if isCont b2 then
            match rest2 with
            | b3 :: _ =>
              if isCont b3 then
                (Char.ofNat ((b0 - 0xF0) * 262144 + (b1 - 0x80) * 4096 +
                  (b2 - 0x80) * 64 + (b3 - 0x80)), 3)
              else (replacementChar, 2)
            | [] => (replacementChar, 2)
          else (replacementChar, 1)
        | [] => (replacementChar, 1)
      else (replacementChar, 0)
    | [] => (replacementChar, 0)
  else (replacementChar, 0)

/-- Lossy UTF-8 decoding: invalid sequences become U+FFFD. -/
def utf8DecodeLossy : List Nat → List Char
  | [] => []
  | b0 :: rest =>
    (utf8DecodeStep b0 rest).1 ::
      utf8DecodeLossy (rest.drop (utf8DecodeStep b0 rest).2)
termination_by bytes => bytes.length
decreasing_by simp only [List.length_cons, List.length_drop]; omega

/-- `Path::to_string_lossy` on a byte-list path. -/
def to_string_lossy (path : List Nat) : String :=
  String.mk (utf8DecodeLossy path)

/-! ### JSON values and `serde_json::to_writer_pretty` -/

/-- JSON values (numbers restricted to `usize`, the only numeric type
these records contain). -/
inductive Json where
  | null
  | bool (b : Bool)
  | num (n : Nat)
  | str (sv : String)
  | arr (xs : List Json)
  | obj (fs : List (String × Json))
deriving Repr

/-- Decimal digit characters of `n`, most significant first. -/
def natToDigits (n : Nat) : List Char :=
  if n < 10 then [Char.ofNat (48 + n)]
  else natToDigits (n / 10) ++ [Char.ofNat (48 + n % 10)]
termination_by n
decreasing_by omega

/-- Lower-case hexadecimal digit character. -/
def hexChar (n : Nat) : Char :=
  if n < 10 then Char.ofNat (48 + n) else Char.ofNat (87 + n)

/-- `serde_json`'s string escaping: `"` and `\` are escaped, control
characters use the short escapes or `\u00XX`, everything else is
emitted as is. -/
def escapeChar (c : Char) : List Char :=
  if c = '\"' then ['\\', '\"']
  else if c = '\\' then ['\\', '\\']
  else if c = Char.ofNat 8 then ['\\', 'b']
  else if c = '\t' then ['\\', 't']
  else if c = '\n' then ['\\', 'n']
  else if c = Char.ofNat 12 then ['\\', 'f']
  else if c = '\r' then ['\\', 'r']
  else if c.toNat < 0x20 then
    '\\' :: 'u' :: ['0', '0', hexChar (c.toNat / 16), hexChar (c.toNat % 16)]
  else [c]

/-- A serialized JSON string: quote, escaped characters, quote. -/
def serStr (s : String) : List Char :=
  '\"' :: (s.data.map escapeChar).flatten ++ ['\"']

/-- Two-space indentation at the given nesting depth (the default
`PrettyFormatter`). -/
def indentChars (depth : Nat) : List Char := List.replicate (2 * depth) ' '

def lbraceChar : Char := Char.ofNat 123

def rbraceChar : Char := Char.ofNat 125

mutual

/-- `serde_json::to_writer_pretty` at nesting depth `depth`: two-space
indent, `",\n"` between items, `": "` after keys, empty containers
inline. -/
def serJson (depth : Nat) : Json → List Char
  | .null => 'n' :: ['u', 'l', 'l']
  | .bool true => 't' :: ['r', 'u', 'e']
  | .bool false => 'f' :: ['a', 'l', 's', 'e']
  | .num n => natToDigits n
  | .str s => serStr s
  | .arr [] => ['[', ']']
  | .arr (x :: xs) =>
    '[' :: '\n' :: (serItems (depth + 1) (x :: xs) ++ '\n' :: (indentChars depth ++ [']']))
  | .obj [] => [lbraceChar, rbraceChar]
  | .obj (f :: fs) =>
    lbraceChar :: '\n' ::
      (serFields (depth + 1) (f :: fs) ++ '\n' :: (indentChars depth ++ [rbraceChar]))

/-- Array items, each on its own indented line, comma-newline
separated. -/
def serItems (depth : Nat) : List Json → List Char
  | [] => []
  | [x] => indentChars depth ++ serJson depth x
  | x :: y :: xs =>
    indentChars depth ++ (serJson depth x ++ ',' :: '\n' :: serItems depth (y :: xs))

/-- Object fields, each on its own indented line as `"key": value`,
comma-newline separated. -/
def serFields (depth : Nat) : List (String × Json) → List Char
  | [] => []
  | [(k, v)] => indentChars depth ++ (serStr k ++ ':' :: ' ' :: serJson depth v)
  | (k, v) :: f :: fs =>
    indentChars depth ++
      (serStr k ++ ':' :: ' ' :: (serJson depth v ++ ',' :: '\n' :: serFields depth (f :: fs)))

end

/-! ### A JSON parser

The spec's top concurrency property says the emitted byte stream
"when parsed as JSON, is a valid array whose elements are ...".  The
parser below is the specification-side reading of that sentence: an
executable recursive-descent JSON parser, independent of the
serializer; the claim theorem runs it on the printer's output. -/

/-- JSON whitespace. -/
def isWsChar (c : Char) : Bool :=
  ((c == ' ') || (c == '\n')) || ((c == '\t') || (c == '\r'))

/-- Skip leading whitespace. -/
def skipWs (s : List Char) : List Char := s.dropWhile isWsChar

/-- Decimal digit value of a character. -/
def digitVal (c : Char) : Option Nat :=
  if ('0' ≤ c) ∧ (c ≤ '9') then some (c.toNat - 48) else none

/-- Hexadecimal digit value of a character. -/
def parseHexDigit (c : Char) : Option Nat :=
  if ('0' ≤ c) ∧ (c ≤ '9') then some (c.toNat - 48)
  else if ('a' ≤ c) ∧ (c ≤ 'f') then some (c.toNat - 87)
  else if ('A' ≤ c) ∧ (c ≤ 'F') then some (c.toNat - 55)
  else none

/-- The character a short escape `\e` denotes. -/
def escDecode (e : Char) : Option Char :=
  if e = '\"' then some '\"'
  else if e = '\\' then some '\\'
  else if e = '/' then some '/'
  else if e = 'b' then some (Char.ofNat 8)
  else if e = 't' then some '\t'
  else if e = 'n' then some '\n'
  else if e = 'f' then some (Char.ofNat 12)
  else if e = 'r' then some '\r'
  else none

/-- Parse the body of a JSON string after the opening quote; returns
the decoded characters and the input after the closing quote. -/
def parseStrBody : List Char → Option (List Char × List Char)
  | [] => none
  | c :: rest =>
    if c = '\"' then some ([], rest)
    else if c = '\\' then
      match rest with
      | [] => none
      | e :: rest1 =>
        if e = 'u' then
          match rest1 with
          | [] => none
          | [_] => none
          | [_, _] => none
          | [_, _, _] => none
          | h1 :: h2 :: h3 :: h4 :: rest2 =>
            match parseHexDigit h1 with
            | none => none
            | some d1 =>
              match parseHexDigit h2 with
              | none => none
              | some d2 =>
                match parseHexDigit h3 with
                | none => none
                | some d3 =>
                  match parseHexDigit h4 with
                  | none => none
                  | some d4 =>
                    (parseStrBody rest2).map fun p =>
                      (Char.ofNat (((d1 * 16 + d2) * 16 + d3) * 16 + d4) :: p.1, p.2)
        else
          match escDecode e with
          | some ec => (parseStrBody rest1).map fun p => (ec :: p.1, p.2)
          | none => none
    else (parseStrBody rest).map fun p => (c :: p.1, p.2)

/-- Parse a run of decimal digits, folding them onto `acc`. -/
def parseDigitsGo (acc : Nat) : List Char → Nat × List Char
  | [] => (acc, [])
  | c :: rest =>
    match digitVal c with
    | some d => parseDigitsGo (acc * 10 + d) rest
    | none => (acc, c :: rest)

/-- The input does not continue with a digit (so a number token cannot
extend into it). -/
def noDigitHead : List Char → Prop
  | [] => True
  | c :: _ => digitVal c = none

mutual

/-- Parse one JSON value (fuel-indexed recursive descent). -/
def parseValue : Nat → List Char → Option (Json × List Char)
  | 0, _ => none
  | fuel + 1, s =>
    match skipWs s with
    | [] => none
    | c :: rest =>
      if c = '\"' then
        (parseStrBody rest).map fun p => (.str (String.mk p.1), p.2)
      else if c = '[' then
        match skipWs rest with
        | [] => none
        | d :: rest2 =>
          if d = ']' then some (.arr [], rest2)
          else (parseItems fuel (d :: rest2) []).map fun p => (.arr p.1, p.2)
      else if c = lbraceChar then
        match skipWs rest with
        | [] => none
        | d :: rest2 =>
          if d = rbraceChar then some (.obj [], rest2)
          else (parseFields fuel (d :: rest2) []).map fun p => (.obj p.1, p.2)
      else if (digitVal c).isSome then
        some (.num (parseDigitsGo 0 (c :: rest)).1, (parseDigitsGo 0 (c :: rest)).2)
      else if c = 'n' then
        if rest.take 3 = ['u', 'l', 'l'] then some (.null, rest.drop 3) else none
      else if c = 't' then
        if rest.take 3 = ['r', 'u', 'e'] then some (.bool true, rest.drop 3) else none
      else if c = 'f' then
        if rest.take 4 = ['a', 'l', 's', 'e'] then some (.bool false, rest.drop 4)
        else none
      else none

/-- Parse the remaining items of a non-empty array, accumulating onto
`acc`; expects a value, then `,` and more items or `]`. -/
def parseItems : Nat → List Char → List Json → Option (List Json × List Char)
  | 0, _, _ => none
  | fuel + 1, s, acc =>
    (parseValue fuel s).bind fun p =>
      match skipWs p.2 with
      | [] => none
      | d :: r2 =>
        if d = ',' then parseItems fuel r2 (acc ++ [p.1])
        else if d = ']' then some (acc ++ [p.1], r2)
        else none

/-- Parse the remaining fields of a non-empty object, accumulating onto
`acc`; expects a quoted key, `:`, a value, then `,` and more fields or
the closing brace. -/
def parseFields : Nat → List Char → List (String × Json) →
    Option (List (String × Json) × List Char)
  | 0, _, _ => none
  | fuel + 1, s, acc =>
    match skipWs s with
    | [] => none
    | q :: r1 =>
      if q = '\"' then
        (parseStrBody r1).bind fun kp =>
          match skipWs kp.2 with
          | [] => none
          | colon :: r2 =>
            if colon = ':' then
              (parseValue fuel r2).bind fun p =>
                match skipWs p.2 with
                | [] => none
                | d :: r4 =>
                  if d = ',' then
                    parseFields fuel r4 (acc ++ [(String.mk kp.1, p.1)])
                  else if d = rbraceChar then
                    some (acc ++ [(String.mk kp.1, p.1)], r4)
                  else none
            else none
      else none

end

/-- Top-level parse: one value, then only trailing whitespace.  The
fuel `s.length + 1` dominates the nesting depth of anything `s` can
spell. -/
def parseJson (s : String) : Option Json :=
  match parseValue (s.length + 1) s.data with
  | some p => if skipWs p.2 = [] then some p.1 else none
  | none => none

mutual

/-- Fuel sufficient for `parseValue` on a serialization of `v`. -/
def jsonFuel : Json → Nat
  | .str _ => 1
  | .num _ => 1
  | .bool _ => 1
  | .null => 1
  | .arr xs => 1 + jsonFuelItems xs
  | .obj fs => 1 + jsonFuelFields fs

/-- Fuel sufficient for `parseItems` on serialized items. -/
def jsonFuelItems : List Json → Nat
  | [] => 1
  | x :: t => 1 + jsonFuel x + jsonFuelItems t

/-- Fuel sufficient for `parseFields` on serialized fields. -/
def jsonFuelFields : List (String × Json) → Nat
  | [] => 1
  | f :: t => 1 + jsonFuel f.2 + jsonFuelFields t

end

/-- The byte shape `parseItems` consumes: items with all-whitespace
leads, `','` separators, an all-whitespace `post`, the closing
bracket, then `rest`.  Instantiated by both the serializer's nested
arrays (lead `'\n'` plus indentation) and the printer's top-level
stream (lead `'\n'`, no indentation). -/
def itemsChain (post rest : List Char) : List (List Char × Nat × Json) → List Char
  | [] => post ++ ']' :: rest
  | e :: t =>
    e.1 ++ (serJson e.2.1 e.2.2 ++
      (match t with
       | [] => post ++ ']' :: rest
       | _ :: _ => ',' :: itemsChain post rest t))

/-- The byte shape `parseFields` consumes. -/
def fieldsChain (post rest : List Char) :
    List (List Char × String × Nat × Json) → List Char
  | [] => post ++ rbraceChar :: rest
  | e :: t =>
    e.1 ++ (serStr e.2.1 ++ ':' :: ' ' ::
      (serJson e.2.2.1 e.2.2.2 ++
        (match t with
         | [] => post ++ rbraceChar :: rest
         | _ :: _ => ',' :: fieldsChain post rest t)))

/-- Fuel for an `itemsChain`. -/
def chainFuel (l : List (List Char × Nat × Json)) : Nat :=
  (l.map fun e => 1 + jsonFuel e.2.2).sum

/-- Fuel for a `fieldsChain`. -/
def fieldsChainFuel (l : List (List Char × String × Nat × Json)) : Nat :=
  (l.map fun e => 1 + jsonFuel e.2.2.2).sum

def Position.toJson (p : Position) : Json :=
  .obj [("line", .num p.line), ("column", .num p.column)]

/-- serde serializes `std::ops::Range` as a struct with `start` and
`end` fields. -/
def ByteOffset.toJson (b : ByteOffset) : Json :=
  .obj [("start", .num b.start), ("end", .num b.«end»)]

def Range.toJson (r : Range) : Json :=
  .obj [("byteOffset", r.byte_offset.toJson), ("start", r.start.toJson),
    ("end", r.«end».toJson)]

def MatchNode.toJson (m : MatchNode) : Json :=
  .obj [("text", .str m.text), ("range", m.range.toJson)]

def MetaVariables.toJson (mv : MetaVariables) : Json :=
  .obj [("single", .obj (mv.single.map fun kv => (kv.1, kv.2.toJson))),
    ("multi", .obj (mv.multi.map fun kv => (kv.1, .arr (kv.2.map MatchNode.toJson))))]

/-- The serialized fields of `MatchJSON`, in declaration order,
camelCase keys, `none` fields omitted. -/
def MatchJSON.jsonFields (m : MatchJSON) : List (String × Json) :=
  [("text", .str m.text), ("range", m.range.toJson), ("file", .str m.file)]
    ++ (match m.replacement with
        | none => []
        | some r => [("replacement", Json.str r)])
    ++ [("language", .str m.language)]
    ++ (match m.meta_variables with
        | none => []
        | some mv => [("metaVariables", mv.toJson)])

def MatchJSON.toJson (m : MatchJSON) : Json := .obj m.jsonFields

/-- `RuleMatchJSON` serializes with `matched` flattened into the outer
object. -/
def RuleMatchJSON.toJson (r : RuleMatchJSON) : Json :=
  .obj (r.matched.jsonFields
    ++ [("ruleId", .str r.rule_id), ("severity", .str r.severity),
      ("message", .str r.message)]
    ++ (match r.labels with
        | none => []
        | some ls => [("labels", Json.arr (ls.map MatchNode.toJson))]))

/-- Pretty-printing one `MatchJSON` doc at top level. -/
def renderMatch (m : MatchJSON) : String := String.mk (serJson 0 m.toJson)

/-- Pretty-printing one `RuleMatchJSON` doc at top level. -/
def renderRuleMatch (r : RuleMatchJSON) : String := String.mk (serJson 0 r.toJson)

/-! ### The printer operations

In the source the doc iterators are lazy and `print_docs` drives them;
here the docs are built first (a panic in `from_env` surfaces before
any write instead of during the batch — none of the claims under study
observes the difference). -/

/-- Building the doc list of one batch: apply `f` to every element,
propagating the first panic (`mapM` for `Except`, written out). -/
def buildDocs (f : α → Except String β) : List α → Except String (List β)
  | [] => .ok []
  | a :: rest =>
    match f a with
    | .error e => .error e
    | .ok b =>
      match buildDocs f rest with
      | .error e => .error e
      | .ok bs => .ok (b :: bs)

/-- The docs built by `print_matches`: `matches.map(|nm|
MatchJSON::new(nm, &path))`. -/
def matchDocs («matches» : List NodeMatch) (pathStr : String) :
    Except String (List MatchJSON) :=
  buildDocs (fun nm => MatchJSON.new nm pathStr) «matches»

/-- The docs built by `print_rule`. -/
def ruleDocs («matches» : List NodeMatch) (fileName : String) (rule : RuleConfig) :
    Except String (List RuleMatchJSON) :=
  buildDocs (fun nm => RuleMatchJSON.new nm fileName rule) «matches»

/-- The docs built by `print_diffs`: the base record with
`replacement` set to the diff's replacement text. -/
def diffDocs (diffs : List Diff) (pathStr : String) :
    Except String (List MatchJSON) :=
  buildDocs (fun diff =>
    (MatchJSON.new diff.node_match pathStr).map fun v =>
      { v with replacement := some diff.replacement }) diffs

/-- The docs built by `print_rule_diffs`: the rule record whose inner
`matched.replacement` is set to the diff's replacement text. -/
def ruleDiffDocs (diffs : List Diff) (pathStr : String) (rule : RuleConfig) :
    Except String (List RuleMatchJSON) :=
  buildDocs (fun diff =>
    (RuleMatchJSON.new diff.node_match pathStr rule).map fun v =>
      { v with matched := { v.matched with replacement := some diff.replacement } }) diffs

/-- `JSONPrinter::print_matches`. -/
def print_matches (p : JSONPrinter) («matches» : List NodeMatch) (path : List Nat) :
    Except String JSONPrinter := do
  let jsons ← matchDocs «matches» (to_string_lossy path)
  return print_docs renderMatch p jsons

/-- `JSONPrinter::print_rule` (its path argument comes from
`SimpleFile::name`, already a string). -/
def print_rule (p : JSONPrinter) («matches» : List NodeMatch) (fileName : String)
    (rule : RuleConfig) : Except String JSONPrinter := do
  let jsons ← ruleDocs «matches» fileName rule
  return print_docs renderRuleMatch p jsons

/-- `JSONPrinter::print_diffs`. -/
def print_diffs (p : JSONPrinter) (diffs : List Diff) (path : List Nat) :
    Except String JSONPrinter := do
  let jsons ← diffDocs diffs (to_string_lossy path)
  return print_docs renderMatch p jsons

/-- `JSONPrinter::print_rule_diffs`. -/
def print_rule_diffs (p : JSONPrinter) (diffs : List Diff) (path : List Nat)
    (rule : RuleConfig) : Except String JSONPrinter := do
  let jsons ← ruleDiffDocs diffs (to_string_lossy path) rule
  return print_docs renderRuleMatch p jsons

/-- A `MatchNode` built from a node, as `from_env` and `get_labels`
build them. -/
def mkMatchNode (node : Node) : MatchNode :=
  { text := node.text, range := get_range node }

/-- Does the collaborator contract hold for one descriptor: a
named-single descriptor has a binding in the environment it was
enumerated from. -/
def namedOk (env : MetaVarEnv) (v : MetaVariable) : Bool :=
  match v with
  | .Named name _ => (env.get_match name).isSome
  | _ => true

/-- The collaborator contract of spec §4.2: the descriptor
enumeration and the single-node lookup consult the same environment,
so every named-single descriptor is bound. -/
def EnvWellFormed (env : MetaVarEnv) : Prop :=
  ∀ v ∈ env.get_matched_variables, namedOk env v = true

/-- Is the descriptor a named (surfaced) variable? -/
def isNamedVar : MetaVariable → Bool
  | .Named _ _ => true
  | .NamedEllipsis _ => true
  | .Anonymous _ => false
  | .Ellipsis => false

/-! ### Concrete sample values (used by witnesses) -/

def sampleNode : Node :=
  { text := "foo", rangeStart := 0, rangeEnd := 3, startLine := 0,
    startColumn := 0, endLine := 0, endColumn := 3 }

/-- An environment with no bound variables. -/
def emptyEnv : MetaVarEnv :=
  { matchedVariables := [], singleMatched := [], multiMatched := [], labelsMap := [] }

def sampleMatch : NodeMatch := { node := sampleNode, env := emptyEnv, lang := "js" }

/-- An environment whose only enumerated descriptor is anonymous. -/
def anonOnlyEnv : MetaVarEnv :=
  { matchedVariables := [.Anonymous false], singleMatched := [], multiMatched := [],
    labelsMap := [] }

def anonOnlyMatch : NodeMatch := { node := sampleNode, env := anonOnlyEnv, lang := "js" }

/-- An environment binding the named variable `x` to `sampleNode`
(text `"foo"`). -/
def namedEnv : MetaVarEnv :=
  { matchedVariables := [.Named "x" false], singleMatched := [("x", sampleNode)],
    multiMatched := [], labelsMap := [] }

def namedMatch : NodeMatch := { node := sampleNode, env := namedEnv, lang := "js" }

def sampleDiff : Diff := { node_match := sampleMatch, replacement := "bar" }

/-- The record `MatchJSON::new` produces for `sampleMatch` and the
empty path. -/
def sampleRecordPlain : MatchJSON :=
  { file := to_string_lossy [], text := "foo", language := "js",
    replacement := none, range := get_range sampleNode, meta_variables := none }

/-- The record `MatchJSON::new` produces for `namedMatch` and the
empty path. -/
def sampleRecordNamed : MatchJSON :=
  { file := to_string_lossy [], text := "foo", language := "js",
    replacement := none, range := get_range sampleNode,
    meta_variables := some { single := [("x", mkMatchNode sampleNode)], multi := [] } }

/-- The record `print_diffs` builds for `sampleDiff` and the empty
path. -/
def sampleRecordDiff : MatchJSON :=
  { sampleRecordPlain with replacement := some "bar" }

def sampleRule : RuleConfig :=
  { id := "rule-1", severity := "warning", get_message := fun _ => "msg" }

/-- Sanity: against an all-true (or exhausted) script, the fallible
version agrees with the success-path `print_docs`. -/
theorem print_docsF_nil_script (render : α → String) (p : JSONPrinter) (docs : List α) :
    (print_docsF render p docs []).printer = print_docs render p docs := by
  cases docs with
  | nil => simp [print_docsF, print_docs]
  | cons doc rest =>
    simp only [print_docsF, print_docs]
    have loop : ∀ (q : JSONPrinter) (l : List α),
        (printDocsLoopF render q l []).printer =
          { q with matched := q.matched, output := q.output ++ printDocsLoop render l } := by
      intro q l
      induction l generalizing q with
      | nil => simp [printDocsLoopF, printDocsLoop]
      | cons d t ih =>
        simp [printDocsLoopF, printDocsLoop, writeF, ih, String.append_assoc]
    by_cases hm : p.matched
    · simp [hm, loop]
    · simp [hm, writeF, loop, String.append_assoc]

/-! ### Basic printer lemmas -/

theorem print_docs_nil (render : α → String) (p : JSONPrinter) :
    print_docs render p [] = p := rfl

theorem print_docsF_nil (render : α → String) (p : JSONPrinter) (script : List Bool) :
    print_docsF render p [] script = ⟨p, script, true⟩ := rfl

theorem printDocsLoop_eq_foldr (render : α → String) (docs : List α) :
    printDocsLoop render docs =
      (docs.map fun d => ",\n" ++ render d).foldr (fun a b => a ++ b) "" := by
  induction docs with
  | nil => rfl
  | cons d rest ih => simp [printDocsLoop, ih, String.append_assoc]

theorem writeF_matched (p : JSONPrinter) (s : String) (script : List Bool) :
    (writeF p s script).printer.matched = p.matched := by
  cases script with
  | nil => rfl
  | cons b rest => by_cases hb : b <;> simp [writeF, hb]

theorem printDocsLoopF_matched (render : α → String) (p : JSONPrinter)
    (docs : List α) (script : List Bool) :
    (printDocsLoopF render p docs script).printer.matched = p.matched := by
  induction docs generalizing p script with
  | nil => rfl
  | cons d rest ih =>
    simp only [printDocsLoopF]
    by_cases h1 : (writeF p ",\n" script).ok
    · simp only [h1, if_true]
      by_cases h2 : (writeF (writeF p ",\n" script).printer (render d)
          (writeF p ",\n" script).script).ok
      · simp only [h2, if_true, ih, writeF_matched]
      · simp [h2, writeF_matched]
    · simp [h1, writeF_matched]

theorem print_docsF_matched (render : α → String) (p : JSONPrinter)
    (docs : List α) (script : List Bool) :
    (print_docsF render p docs script).printer.matched =
      (p.matched || !docs.isEmpty) := by
  cases docs with
  | nil => simp [print_docsF]
  | cons doc rest =>
    simp only [print_docsF, List.isEmpty_cons, Bool.not_false, Bool.or_true]
    by_cases hm : p.matched
    · simp [hm, printDocsLoopF_matched]
    · simp only [hm, Bool.not_false, if_true]
      by_cases h1 : (writeF { p with matched := true } "\n" script).ok
      · simp only [h1, if_true]
        by_cases h2 : (writeF (writeF { p with matched := true } "\n" script).printer
            (render doc) (writeF { p with matched := true } "\n" script).script).ok
        · simp only [h2, if_true, printDocsLoopF_matched, writeF_matched]
        · simp [h2, writeF_matched]
      · simp [h1, writeF_matched]

theorem print_docs_matched (render : α → String) (p : JSONPrinter) (docs : List α) :
    (print_docs render p docs).matched = (p.matched || !docs.isEmpty) := by
  cases docs with
  | nil => simp [print_docs]
  | cons doc rest => by_cases hm : p.matched <;> simp [print_docs, hm]

theorem runBatches_matched (render : α → String) (p : JSONPrinter)
    (batches : List (List α)) :
    (runBatches render p batches).matched =
      (p.matched || batches.any fun b => !b.isEmpty) := by
  induction batches generalizing p with
  | nil => simp [runBatches]
  | cons b rest ih =>
    simp [runBatches, ih, print_docs_matched, Bool.or_assoc]

theorem runBatches_all_empty (render : α → String) (p : JSONPrinter)
    (batches : List (List α)) (hempty : ∀ b ∈ batches, b = []) :
    runBatches render p batches = p := by
  induction batches with
  | nil => rfl
  | cons b rest ih =>
    have hb : b = [] := hempty b (by simp)
    subst hb
    simp only [runBatches, print_docs]
    exact ih fun b hb => hempty b (by simp [hb])

/-! ### Claim theorems for the printer state machine -/

/-- C2: for every non-empty batch, `print_docs` captures the prior value
of the `matched` flag and then writes: a leading `"\n"` and the first
record if the prior value was `false`, `",\n"` and the first record if
it was `true`, and `",\n"` followed by the record for every subsequent
record, in batch order. -/
theorem print_docs_batch_writes (render : α → String) (p : JSONPrinter)
    (doc : α) (rest : List α) :
    (print_docs render p (doc :: rest)).output =
      p.output ++ (if p.matched then ",\n" else "\n") ++ render doc ++
        ((rest.map fun d => ",\n" ++ render d).foldr (fun a b => a ++ b) "") ∧
    (print_docs render p (doc :: rest)).matched = true := by
  by_cases hm : p.matched <;>
    simp [print_docs, hm, printDocsLoop, printDocsLoop_eq_foldr, String.append_assoc]

/-- C4: a run in which every batch is empty outputs exactly `[` then `]`
(then the final newline that `writeln!` appends after the closing
bracket); `after_print` writes a newline before the closing bracket
exactly when `matched` is set, and `matched` is set after a run exactly
when some batch was non-empty (i.e. at least one record was written). -/
theorem empty_run_output (render : α → String) (batches : List (List α))
    (hempty : ∀ b ∈ batches, b = []) :
    (after_print (runBatches render (before_print JSONPrinter.new) batches)).output
        = "[" ++ "]" ++ "\n"
    ∧ (∀ p : JSONPrinter,
        (after_print p).output
          = p.output ++ (if p.matched then "\n" else "") ++ "]" ++ "\n")
    ∧ (∀ batches' : List (List α),
        (runBatches render (before_print JSONPrinter.new) batches').matched = true
          ↔ ∃ b ∈ batches', b ≠ []) := by
  refine ⟨?_, ?_, ?_⟩
  · rw [runBatches_all_empty render _ _ hempty]
    simp [before_print, after_print, JSONPrinter.new]
  · intro p
    by_cases hm : p.matched <;> simp [after_print, hm, String.append_assoc]
  · intro batches'
    rw [runBatches_matched]
    simp only [before_print, JSONPrinter.new, Bool.false_or, List.any_eq_true]
    constructor
    · rintro ⟨b, hb, hne⟩
      exact ⟨b, hb, by simpa using hne⟩
    · rintro ⟨b, hb, hne⟩
      exact ⟨b, hb, by simpa using hne⟩

theorem empty_run_output_witness :
    (after_print (runBatches (fun (s : String) => s)
        (before_print JSONPrinter.new) [[], []])).output = "[" ++ "]" ++ "\n" :=
  (empty_run_output (fun (s : String) => s) [[], []] (by decide)).1

/-- C6: the `matched` flag starts `false` at creation; any non-empty
batch sets it to `true` regardless of write failures (the swap happens
before the first write); no operation ever resets it; and a batch
printed after the flag is set starts with the `",\n"` separator. -/
theorem matched_flag_lifecycle (render : α → String) :
    JSONPrinter.new.matched = false
    ∧ (∀ (p : JSONPrinter) (docs : List α) (script : List Bool),
        docs ≠ [] → (print_docsF render p docs script).printer.matched = true)
    ∧ (∀ (p : JSONPrinter) (docs : List α) (script : List Bool),
        p.matched = true → (print_docsF render p docs script).printer.matched = true)
    ∧ (∀ p : JSONPrinter, (before_print p).matched = p.matched)
    ∧ (∀ p : JSONPrinter, (after_print p).matched = p.matched)
    ∧ (∀ (p : JSONPrinter) (doc : α) (rest : List α),
        p.matched = true →
        ∃ s, (print_docs render p (doc :: rest)).output = p.output ++ (",\n" ++ s)) := by
  refine ⟨rfl, ?_, ?_, fun p => rfl, ?_, ?_⟩
  · intro p docs script hne
    rw [print_docsF_matched]
    cases docs with
    | nil => exact absurd rfl hne
    | cons d t => simp
  · intro p docs script hm
    rw [print_docsF_matched, hm, Bool.true_or]
  · intro p
    by_cases hm : p.matched <;> simp [after_print, hm]
  · intro p doc rest hm
    refine ⟨render doc ++ printDocsLoop render rest, ?_⟩
    simp [print_docs, hm, printDocsLoop, String.append_assoc]

theorem matched_flag_lifecycle_witness :
    (["x"] : List String) ≠ []
    ∧ (print_docsF (fun (s : String) => s) ⟨"[", false⟩ ["x"] [false]).printer.matched = true
    ∧ (print_docsF (fun (s : String) => s) ⟨"[", true⟩ [] []).printer.matched = true
    ∧ ∃ s, (print_docs (fun (s : String) => s) ⟨"[", true⟩ ["x"]).output = "[" ++ (",\n" ++ s) :=
  ⟨by decide,
   (matched_flag_lifecycle (fun (s : String) => s)).2.1 ⟨"[", false⟩ ["x"] [false] (by decide),
   (matched_flag_lifecycle (fun (s : String) => s)).2.2.1 ⟨"[", true⟩ [] [] (by decide),
   (matched_flag_lifecycle (fun (s : String) => s)).2.2.2.2.2 ⟨"[", true⟩ "x" [] (by decide)⟩

/-! ### Association-list and extraction lemmas -/

theorem lookup_insertAssoc_self (l : List (String × β)) (k : String) (v : β) :
    (insertAssoc l k v).lookup k = some v := by
  induction l with
  | nil => simp [insertAssoc, List.lookup]
  | cons kv rest ih =>
    obtain ⟨k0, v0⟩ := kv
    by_cases hk : k0 = k
    · subst hk; simp [insertAssoc, List.lookup]
    · have hbeq : (k == k0) = false := beq_eq_false_iff_ne.mpr (Ne.symm hk)
      simp [insertAssoc, hk, List.lookup, hbeq, ih]

theorem lookup_insertAssoc_ne (l : List (String × β)) (k k' : String) (v : β)
    (h : k' ≠ k) : (insertAssoc l k v).lookup k' = l.lookup k' := by
  induction l with
  | nil =>
    have hbeq : (k' == k) = false := beq_eq_false_iff_ne.mpr h
    simp [insertAssoc, List.lookup, hbeq]
  | cons kv rest ih =>
    obtain ⟨k0, v0⟩ := kv
    by_cases hk : k0 = k
    · subst hk
      have hbeq : (k' == k0) = false := beq_eq_false_iff_ne.mpr h
      simp [insertAssoc, List.lookup, hbeq]
    · simp [insertAssoc, hk, List.lookup, ih]

theorem fromEnvLoop_ok_of_wf (env : MetaVarEnv) (vars : List MetaVariable)
    (h : ∀ v ∈ vars, namedOk env v = true) :
    ∀ (single : List (String × MatchNode)) (multi : List (String × List MatchNode)),
      ∃ sm, fromEnvLoop env vars single multi = .ok sm := by
  induction vars with
  | nil => intro single multi; exact ⟨(single, multi), rfl⟩
  | cons var rest ih =>
    intro single multi
    have hrest : ∀ v ∈ rest, namedOk env v = true := fun v hv => h v (by simp [hv])
    cases var with
    | Named n req =>
      have hn : namedOk env (.Named n req) = true := h _ (by simp)
      rw [namedOk] at hn
      cases hm : env.get_match n with
      | none => rw [hm] at hn; simp at hn
      | some node => simpa [fromEnvLoop, hm] using ih hrest _ _
    | NamedEllipsis n => simpa [fromEnvLoop] using ih hrest _ _
    | Anonymous req => simpa [fromEnvLoop] using ih hrest _ _
    | Ellipsis => simpa [fromEnvLoop] using ih hrest _ _

theorem fromEnvLoop_lookup (env : MetaVarEnv) (vars : List MetaVariable)
    (x : String) (node : Node) (hx : env.get_match x = some node) :
    ∀ (single : List (String × MatchNode)) (multi : List (String × List MatchNode))
      (s : List (String × MatchNode)) (m : List (String × List MatchNode)),
      fromEnvLoop env vars single multi = .ok (s, m) →
      ((∃ req, MetaVariable.Named x req ∈ vars)
        ∨ single.lookup x = some (mkMatchNode node)) →
      s.lookup x = some (mkMatchNode node) := by
  induction vars with
  | nil =>
    intro single multi s m h hd
    rw [fromEnvLoop] at h
    injection h with h
    injection h with h1 h2
    cases hd with
    | inl hex =>
      obtain ⟨req, hmem⟩ := hex
      simp at hmem
    | inr hl => rw [← h1]; exact hl
  | cons var rest ih =>
    intro single multi s m h hd
    cases var with
    | Named n req0 =>
      cases hm0 : env.get_match n with
      | none => rw [fromEnvLoop, hm0] at h; cases h
      | some node0 =>
        rw [fromEnvLoop, hm0] at h
        refine ih _ _ _ _ h ?_
        cases hd with
        | inl hex =>
          obtain ⟨req, hmem⟩ := hex
          rcases List.mem_cons.mp hmem with heq | hrest
          · cases heq
            right
            rw [hx] at hm0
            injection hm0 with hm0
            rw [hm0]
            exact lookup_insertAssoc_self _ _ _
          · exact Or.inl ⟨req, hrest⟩
        | inr hl =>
          right
          by_cases hxn : x = n
          · subst hxn
            rw [hx] at hm0
            injection hm0 with hm0
            rw [hm0]
            exact lookup_insertAssoc_self _ _ _
          · rw [lookup_insertAssoc_ne _ _ _ _ hxn]; exact hl
    | NamedEllipsis n =>
      rw [fromEnvLoop] at h
      refine ih _ _ _ _ h ?_
      cases hd with
      | inl hex =>
        obtain ⟨req, hmem⟩ := hex
        rcases List.mem_cons.mp hmem with heq | hrest
        · cases heq
        · exact Or.inl ⟨req, hrest⟩
      | inr hl => exact Or.inr hl
    | Anonymous req1 =>
      rw [fromEnvLoop] at h
      refine ih _ _ _ _ h ?_
      cases hd with
      | inl hex =>
        obtain ⟨req, hmem⟩ := hex
        rcases List.mem_cons.mp hmem with heq | hrest
        · cases heq
        · exact Or.inl ⟨req, hrest⟩
      | inr hl => exact Or.inr hl
    | Ellipsis =>
      rw [fromEnvLoop] at h
      refine ih _ _ _ _ h ?_
      cases hd with
      | inl hex =>
        obtain ⟨req, hmem⟩ := hex
        rcases List.mem_cons.mp hmem with heq | hrest
        · cases heq
        · exact Or.inl ⟨req, hrest⟩
      | inr hl => exact Or.inr hl

/-! ### Claim theorems for record building -/

/-- C9: under the collaborator contract — every named-single descriptor
enumerated from the environment has a binding in that same environment —
the `.expect("must exist!")` lookup in `from_env` cannot fail, so
`from_env` never panics.  The panic channel (`Except.error`) is distinct
from the `io::Result` channel of the printer: a failure here is fatal,
not a recoverable error. -/
theorem named_lookup_infallible (nm : NodeMatch) (h : EnvWellFormed nm.get_env) :
    ∃ mv, from_env nm = .ok mv := by
  rw [from_env]
  by_cases he : nm.get_env.get_matched_variables.isEmpty
  · exact ⟨none, by rw [if_pos he]⟩
  · obtain ⟨sm, hsm⟩ := fromEnvLoop_ok_of_wf nm.get_env _ h [] []
    exact ⟨some { single := sm.1, multi := sm.2 }, by rw [if_neg he, hsm]; rfl⟩

theorem buildDocs_ok_map {f : α → Except String β} {g : β → γ} {h : α → γ}
    (hf : ∀ a b, f a = .ok b → g b = h a) :
    ∀ {l : List α} {bs : List β}, buildDocs f l = .ok bs → bs.map g = l.map h := by
  intro l
  induction l with
  | nil =>
    intro bs hok
    rw [buildDocs] at hok
    injection hok with hok
    subst hok
    rfl
  | cons a t ih =>
    intro bs hok
    rw [buildDocs] at hok
    cases hfa : f a with
    | error e => rw [hfa] at hok; cases hok
    | ok b =>
      rw [hfa] at hok
      cases ht : buildDocs f t with
      | error e => rw [ht] at hok; cases hok
      | ok bt =>
        rw [ht] at hok
        injection hok with hok
        subst hok
        simp [List.map, hf a b hfa, ih ht]

theorem matchJSON_new_ok (nm : NodeMatch) (s : String) (b : MatchJSON)
    (h : MatchJSON.new nm s = .ok b) :
    ∃ mv, b = { file := s, text := nm.text, language := nm.lang,
                replacement := none, range := get_range nm.node,
                meta_variables := mv } := by
  cases hfe : from_env nm with
  | error e => rw [MatchJSON.new, hfe] at h; cases h
  | ok mv =>
    rw [MatchJSON.new, hfe] at h
    simp only [Except.map] at h
    injection h with h
    exact ⟨mv, h.symm⟩

theorem ruleMatchJSON_new_ok (nm : NodeMatch) (s : String) (rule : RuleConfig)
    (b : RuleMatchJSON) (h : RuleMatchJSON.new nm s rule = .ok b) :
    ∃ m, MatchJSON.new nm s = .ok m
      ∧ b = { matched := m, rule_id := rule.id, severity := rule.severity,
              message := rule.get_message nm, labels := get_labels nm } := by
  cases hmn : MatchJSON.new nm s with
  | error e => rw [RuleMatchJSON.new, hmn] at h; cases h
  | ok m =>
    rw [RuleMatchJSON.new, hmn] at h
    simp only [Except.map] at h
    injection h with h
    exact ⟨m, rfl, h.symm⟩

/-- C5 (counterexample): for the match whose environment enumerates
only an anonymous descriptor, `from_env` yields a *present*
`metaVariables` value with both maps empty, though no named variable is
bound — against "present only if at least one named variable was bound"
and "when present, the union of the two maps is non-empty". -/
theorem meta_variables_presence_counterexample :
    from_env anonOnlyMatch = .ok (some { single := [], multi := [] })
    ∧ anonOnlyMatch.get_env.get_matched_variables.all (fun v => !isNamedVar v) = true
    ∧ anonOnlyMatch.get_env.singleMatched = []
    ∧ anonOnlyMatch.get_env.multiMatched = [] :=
  ⟨rfl, rfl, rfl, rfl⟩

/-- C5 (amended): the record carries a `metaVariables` field iff the
environment enumerates at least one bound variable descriptor *of any
kind* (so the union of the two maps may be empty, when only anonymous
descriptors are enumerated); and when the named variable `x` is bound
to a node, `single.x` carries that node's text and range — for a node
with text `"foo"`, `metaVariables.single.x.text` is `"foo"`. -/
theorem meta_variables_presence (nm : NodeMatch) (mv : Option MetaVariables)
    (h : from_env nm = .ok mv) :
    (mv.isSome ↔ nm.get_env.get_matched_variables ≠ [])
    ∧ (∀ (x : String) (req : Bool) (node : Node) (m : MetaVariables),
        mv = some m →
        MetaVariable.Named x req ∈ nm.get_env.get_matched_variables →
        nm.get_env.get_match x = some node →
        m.single.lookup x = some (mkMatchNode node)) := by
  rw [from_env] at h
  by_cases he : nm.get_env.get_matched_variables.isEmpty
  · rw [if_pos he] at h
    injection h with h
    subst h
    refine ⟨?_, ?_⟩
    · rw [List.isEmpty_iff] at he
      simp [he]
    · intro x req node m hm
      cases hm
  · rw [if_neg he] at h
    cases hloop : fromEnvLoop nm.get_env nm.get_env.get_matched_variables [] [] with
    | error e => rw [hloop] at h; cases h
    | ok sm =>
      rw [hloop] at h
      simp only [Except.map] at h
      injection h with h
      subst h
      refine ⟨?_, ?_⟩
      · rw [List.isEmpty_iff] at he
        simp [he]
      · intro x req node m hm hmem hx
        injection hm with hm
        subst hm
        exact fromEnvLoop_lookup nm.get_env _ x node hx [] [] sm.1 sm.2
          (by rw [hloop]) (Or.inl ⟨req, hmem⟩)

theorem meta_variables_presence_witness :
    ((some { single := [("x", mkMatchNode sampleNode)], multi := [] } : Option MetaVariables).isSome
      ↔ namedMatch.get_env.get_matched_variables ≠ [])
    ∧ List.lookup "x"
        (MetaVariables.single { single := [("x", mkMatchNode sampleNode)], multi := [] })
      = some (mkMatchNode sampleNode) :=
  ⟨(meta_variables_presence namedMatch
      (some { single := [("x", mkMatchNode sampleNode)], multi := [] }) rfl).1,
   (meta_variables_presence namedMatch
      (some { single := [("x", mkMatchNode sampleNode)], multi := [] }) rfl).2
     "x" false sampleNode { single := [("x", mkMatchNode sampleNode)], multi := [] }
     rfl (by simp [namedMatch, namedEnv, NodeMatch.get_env, MetaVarEnv.get_matched_variables])
     rfl⟩

theorem named_lookup_infallible_witness :
    ∃ mv, from_env namedMatch = .ok mv :=
  named_lookup_infallible namedMatch (by
    intro v hv
    simp [namedMatch, namedEnv, MetaVarEnv.get_matched_variables, NodeMatch.get_env] at hv
    subst hv
    decide)

/-- C8: every record built by a diff-printing operation carries
`replacement = some dr` where `dr` is that diff's replacement text, and
every record built by a non-diff operation carries `replacement =
none`. -/
theorem diff_replacement_field (pathStr : String) (fileName : String) (rule : RuleConfig) :
    (∀ (diffs : List Diff) (jsons : List MatchJSON),
        diffDocs diffs pathStr = .ok jsons →
        jsons.map (fun r => r.replacement) = diffs.map fun d => some d.replacement)
    ∧ (∀ (diffs : List Diff) (jsons : List RuleMatchJSON),
        ruleDiffDocs diffs pathStr rule = .ok jsons →
        jsons.map (fun r => r.matched.replacement) = diffs.map fun d => some d.replacement)
    ∧ (∀ (ms : List NodeMatch) (jsons : List MatchJSON),
        matchDocs ms pathStr = .ok jsons →
        ∀ r ∈ jsons, r.replacement = none)
    ∧ (∀ (ms : List NodeMatch) (jsons : List RuleMatchJSON),
        ruleDocs ms fileName rule = .ok jsons →
        ∀ r ∈ jsons, r.matched.replacement = none) := by
  refine ⟨?_, ?_, ?_, ?_⟩
  · intro diffs jsons h
    refine buildDocs_ok_map ?_ h
    intro d b hb
    cases hmn : MatchJSON.new d.node_match pathStr with
    | error e => rw [hmn] at hb; cases hb
    | ok m =>
      rw [hmn] at hb
      simp only [Except.map] at hb
      injection hb with hb
      rw [← hb]
  · intro diffs jsons h
    refine buildDocs_ok_map ?_ h
    intro d b hb
    cases hmn : RuleMatchJSON.new d.node_match pathStr rule with
    | error e => rw [hmn] at hb; cases hb
    | ok m =>
      rw [hmn] at hb
      simp only [Except.map] at hb
      injection hb with hb
      rw [← hb]
  · intro ms jsons h r hr
    have hmap : jsons.map (fun r => r.replacement) = ms.map fun _ => none := by
      refine buildDocs_ok_map ?_ h
      intro a b hb
      obtain ⟨mv, hbv⟩ := matchJSON_new_ok a pathStr b hb
      rw [hbv]
    have : r.replacement ∈ jsons.map fun r => r.replacement := List.mem_map_of_mem _ hr
    rw [hmap] at this
    obtain ⟨a, _, ha⟩ := List.mem_map.mp this
    exact ha.symm
  · intro ms jsons h r hr
    have hmap : jsons.map (fun r => r.matched.replacement) = ms.map fun _ => none := by
      refine buildDocs_ok_map ?_ h
      intro a b hb
      obtain ⟨m, hm, hbv⟩ := ruleMatchJSON_new_ok a fileName rule b hb
      obtain ⟨mv, hmv⟩ := matchJSON_new_ok a fileName m hm
      rw [hbv, hmv]
    have : r.matched.replacement ∈ jsons.map fun r => r.matched.replacement :=
      List.mem_map_of_mem _ hr
    rw [hmap] at this
    obtain ⟨a, _, ha⟩ := List.mem_map.mp this
    exact ha.symm

theorem diff_replacement_field_witness :
    [sampleRecordDiff].map (fun r => r.replacement)
      = [sampleDiff].map (fun d => some d.replacement) :=
  (diff_replacement_field (to_string_lossy []) "f" sampleRule).1 [sampleDiff]
    [sampleRecordDiff]
    (by simp [diffDocs, buildDocs, MatchJSON.new, from_env, sampleDiff, sampleMatch,
      emptyEnv, NodeMatch.get_env, MetaVarEnv.get_matched_variables, Except.map,
      NodeMatch.text, sampleNode, sampleRecordDiff, sampleRecordPlain])

/-- C7: `MatchJSON::new` sets `file` to the given path, `text` to the
match's matched text, `language` to its language tag, `range` to the
matched node's byte range and line/column positions, and `replacement`
to absent; and printing exactly one record between `before_print` and
`after_print` yields the opening bracket, a newline, the pretty-printed
record, a newline, and the closing bracket (followed by the final
newline `writeln!` emits after it). -/
theorem match_record_fields (nm : NodeMatch) (path : String) (r : MatchJSON)
    (h : MatchJSON.new nm path = .ok r) :
    r.file = path ∧ r.text = nm.text ∧ r.language = nm.lang
    ∧ r.range = get_range nm.node ∧ r.replacement = none
    ∧ r.range.byte_offset = nm.node.range
    ∧ r.range.start.line = nm.node.start_pos.1
    ∧ r.range.start.column = nm.node.start_pos.2
    ∧ r.range.«end».line = nm.node.end_pos.1
    ∧ r.range.«end».column = nm.node.end_pos.2
    ∧ (∀ path' : List Nat, to_string_lossy path' = path →
        (do
          let p1 ← print_matches (before_print JSONPrinter.new) [nm] path'
          Except.ok (after_print p1))
          = .ok { output := "[" ++ "\n" ++ renderMatch r ++ "\n" ++ "]" ++ "\n",
                  matched := true }) := by
  obtain ⟨mv, hr⟩ := matchJSON_new_ok nm path r h
  subst hr
  refine ⟨rfl, rfl, rfl, rfl, rfl, rfl, rfl, rfl, rfl, rfl, ?_⟩
  intro path' hp
  simp [print_matches, matchDocs, buildDocs, hp, h, bind, Except.bind, pure,
    Except.pure, print_docs, printDocsLoop, before_print, after_print,
    JSONPrinter.new, String.empty_append, String.append_empty, String.append_assoc]

theorem match_record_fields_witness :
    (do
      let p1 ← print_matches (before_print JSONPrinter.new) [sampleMatch] []
      Except.ok (after_print p1))
      = .ok { output := "[" ++ "\n" ++ renderMatch sampleRecordPlain
                ++ "\n" ++ "]" ++ "\n",
              matched := true } :=
  (match_record_fields sampleMatch (to_string_lossy []) sampleRecordPlain
      (by simp [MatchJSON.new, from_env, sampleMatch, emptyEnv, NodeMatch.get_env,
        MetaVarEnv.get_matched_variables, Except.map, NodeMatch.text,
        sampleNode, sampleRecordPlain])).2.2.2.2.2.2.2.2.2.2 [] rfl

/-- C3: each record-printing operation returns `Ok` immediately on an
empty input sequence, leaving the output and the `matched` flag
untouched; hence an empty batch between two non-empty sequential
batches contributes nothing: `[m1]`, `[]`, `[m2]`, `after_print`
produces bracket, newline, record, `",\n"`, record, newline, bracket. -/
theorem empty_batch_no_effect :
    (∀ (p : JSONPrinter) (path : List Nat), print_matches p [] path = .ok p)
    ∧ (∀ (p : JSONPrinter) (fileName : String) (rule : RuleConfig),
        print_rule p [] fileName rule = .ok p)
    ∧ (∀ (p : JSONPrinter) (path : List Nat), print_diffs p [] path = .ok p)
    ∧ (∀ (p : JSONPrinter) (path : List Nat) (rule : RuleConfig),
        print_rule_diffs p [] path rule = .ok p)
    ∧ (∀ (m1 m2 : NodeMatch) (pa pb pc : List Nat) (r1 r2 : MatchJSON),
        MatchJSON.new m1 (to_string_lossy pa) = .ok r1 →
        MatchJSON.new m2 (to_string_lossy pc) = .ok r2 →
        (do
          let p1 ← print_matches (before_print JSONPrinter.new) [m1] pa
          let p2 ← print_matches p1 [] pb
          let p3 ← print_matches p2 [m2] pc
          Except.ok (after_print p3))
        = .ok { output := "[" ++ "\n" ++ renderMatch r1 ++ ",\n" ++ renderMatch r2
                  ++ "\n" ++ "]" ++ "\n", matched := true }) := by
  refine ⟨fun p path => rfl, fun p f rule => rfl, fun p path => rfl,
    fun p path rule => rfl, ?_⟩
  intro m1 m2 pa pb pc r1 r2 h1 h2
  simp [print_matches, matchDocs, buildDocs, h1, h2, bind, Except.bind, pure,
    Except.pure, print_docs, printDocsLoop, before_print, after_print,
    JSONPrinter.new, String.empty_append, String.append_empty, String.append_assoc]

theorem empty_batch_no_effect_witness :
    (do
      let p1 ← print_matches (before_print JSONPrinter.new) [sampleMatch] []
      let p2 ← print_matches p1 [] []
      let p3 ← print_matches p2 [namedMatch] []
      Except.ok (after_print p3))
    = .ok { output := "[" ++ "\n" ++ renderMatch sampleRecordPlain ++ ",\n"
              ++ renderMatch sampleRecordNamed ++ "\n" ++ "]" ++ "\n",
            matched := true } :=
  empty_batch_no_effect.2.2.2.2 sampleMatch namedMatch [] [] []
    sampleRecordPlain sampleRecordNamed
    (by simp [MatchJSON.new, from_env, sampleMatch, emptyEnv, NodeMatch.get_env,
      MetaVarEnv.get_matched_variables, Except.map, NodeMatch.text, sampleNode,
      sampleRecordPlain])
    (by simp [MatchJSON.new, from_env, namedMatch, namedEnv, NodeMatch.get_env,
      MetaVarEnv.get_matched_variables, Except.map, NodeMatch.text, sampleNode,
      fromEnvLoop, MetaVarEnv.get_match, List.lookup, insertAssoc, mkMatchNode,
      sampleRecordNamed])

/-! ### UTF-8 roundtrip lemmas -/

theorem utf8DecodeLossy_nil : utf8DecodeLossy [] = [] := by
  rw [utf8DecodeLossy]

theorem utf8DecodeLossy_cons (b0 : Nat) (rest : List Nat) :
    utf8DecodeLossy (b0 :: rest) =
      (utf8DecodeStep b0 rest).1 ::
        utf8DecodeLossy (rest.drop (utf8DecodeStep b0 rest).2) := by
  rw [utf8DecodeLossy]

theorem utf8DecodeLossy_encodeChar (c : Char) (rest : List Nat) :
    utf8DecodeLossy (utf8EncodeChar c ++ rest) = c :: utf8DecodeLossy rest := by
  have hv : c.toNat < 0xD800 ∨ (0xE000 ≤ c.toNat ∧ c.toNat < 0x110000) := c.valid
  rw [utf8EncodeChar]
  by_cases h1 : c.toNat < 0x80
  · simp only [if_pos h1, List.cons_append, List.nil_append, utf8DecodeLossy_cons]
    simp [utf8DecodeStep, h1, Char.ofNat_toNat]
  · by_cases h2 : c.toNat < 0x800
    · simp only [if_neg h1, if_pos h2, List.cons_append, List.nil_append,
        utf8DecodeLossy_cons]
      have g1 : ¬ (0xC0 + c.toNat / 64 < 0x80) := by omega
      have g2 : 0xC2 ≤ 0xC0 + c.toNat / 64 := by omega
      have g2b : 0xC0 + c.toNat / 64 ≤ 0xDF := by omega
      have g3 : 0x80 ≤ 0x80 + c.toNat % 64 := by omega
      have g3b : 0x80 + c.toNat % 64 < 0xC0 := by omega
      simp [utf8DecodeStep, isCont, g1, g2, g2b, g3, g3b]
      have hda : c.toNat / 64 * 64 + c.toNat % 64 = c.toNat := by omega
      rw [hda, Char.ofNat_toNat]
    · by_cases h3 : c.toNat < 0x10000
      · simp only [if_neg h1, if_neg h2, if_pos h3, List.cons_append, List.nil_append,
          utf8DecodeLossy_cons]
        have g1 : ¬ (0xE0 + c.toNat / 4096 < 0x80) := by omega
        have g2 : ¬ (0xC2 ≤ 0xE0 + c.toNat / 4096 ∧ 0xE0 + c.toNat / 4096 ≤ 0xDF) := by
          omega
        have g3 : 0xE0 ≤ 0xE0 + c.toNat / 4096 := by omega
        have g3b : 0xE0 + c.toNat / 4096 ≤ 0xEF := by omega
        have hval : valid3Second (0xE0 + c.toNat / 4096) (0x80 + c.toNat / 64 % 64) := by
          rw [valid3Second]
          rcases hv with hlt | ⟨hge, hlt2⟩ <;> split_ifs <;> constructor <;> omega
        have g4 : 0x80 ≤ 0x80 + c.toNat % 64 := by omega
        have g4b : 0x80 + c.toNat % 64 < 0xC0 := by omega
        simp [utf8DecodeStep, isCont, g1, g2, g3, g3b, hval, g4, g4b]
        have hda : c.toNat / 4096 * 4096 + c.toNat / 64 % 64 * 64 + c.toNat % 64
            = c.toNat := by omega
        rw [hda, Char.ofNat_toNat]
      · simp only [if_neg h1, if_neg h2, if_neg h3, List.cons_append, List.nil_append,
          utf8DecodeLossy_cons]
        have hub : c.toNat < 0x110000 := by rcases hv with hlt | ⟨hge, hlt2⟩ <;> omega
        have g1 : ¬ (0xF0 + c.toNat / 262144 < 0x80) := by omega
        have g2 : ¬ (0xC2 ≤ 0xF0 + c.toNat / 262144 ∧ 0xF0 + c.toNat / 262144 ≤ 0xDF) := by
          omega
        have g3 : ¬ (0xE0 ≤ 0xF0 + c.toNat / 262144 ∧ 0xF0 + c.toNat / 262144 ≤ 0xEF) := by
          omega
        have g4 : 0xF0 ≤ 0xF0 + c.toNat / 262144 := by omega
        have g4b : 0xF0 + c.toNat / 262144 ≤ 0xF4 := by omega
        have hval : valid4Second (0xF0 + c.toNat / 262144) (0x80 + c.toNat / 4096 % 64) := by
          rw [valid4Second]
          split_ifs <;> constructor <;> omega
        have g5 : 0x80 ≤ 0x80 + c.toNat / 64 % 64 := by omega
        have g5b : 0x80 + c.toNat / 64 % 64 < 0xC0 := by omega
        have g6 : 0x80 ≤ 0x80 + c.toNat % 64 := by omega
        have g6b : 0x80 + c.toNat % 64 < 0xC0 := by omega
        simp [utf8DecodeStep, isCont, g1, g2, g3, g4, g4b, hval, g5, g5b, g6, g6b]
        have hda : c.toNat / 262144 * 262144 + c.toNat / 4096 % 64 * 4096 +
            c.toNat / 64 % 64 * 64 + c.toNat % 64 = c.toNat := by omega
        rw [hda, Char.ofNat_toNat]

theorem utf8DecodeLossy_encode_append (s : List Char) (rest : List Nat) :
    utf8DecodeLossy (utf8Encode s ++ rest) = s ++ utf8DecodeLossy rest := by
  induction s with
  | nil => simp [utf8Encode]
  | cons c t ih =>
    have he : utf8Encode (c :: t) = utf8EncodeChar c ++ utf8Encode t := by
      simp [utf8Encode]
    rw [he, List.append_assoc, utf8DecodeLossy_encodeChar, ih, List.cons_append]

theorem utf8DecodeLossy_invalid_byte (bytes : List Nat) :
    utf8DecodeLossy (0xFF :: bytes) = replacementChar :: utf8DecodeLossy bytes := by
  rw [utf8DecodeLossy_cons]
  have hstep : utf8DecodeStep 0xFF bytes = (replacementChar, 0) := by
    simp [utf8DecodeStep]
  rw [hstep]
  rfl

theorem to_string_lossy_encode (s : List Char) :
    to_string_lossy (utf8Encode s) = String.mk s := by
  rw [to_string_lossy]
  rw [show utf8Encode s = utf8Encode s ++ [] by simp, utf8DecodeLossy_encode_append]
  simp [utf8DecodeLossy_nil]

theorem to_string_lossy_invalid (s t : List Char) :
    to_string_lossy (utf8Encode s ++ 0xFF :: utf8Encode t)
      = String.mk (s ++ replacementChar :: t) := by
  rw [to_string_lossy, utf8DecodeLossy_encode_append, utf8DecodeLossy_invalid_byte]
  rw [show utf8Encode t = utf8Encode t ++ [] by simp, utf8DecodeLossy_encode_append]
  simp [utf8DecodeLossy_nil]

/-- C10: `print_matches`, `print_diffs` and `print_rule_diffs` build
their records with `file` equal to the lossy UTF-8 rendering of the
path; on a path that is valid UTF-8 — the encoding of a string `s` —
the rendering is exactly `s`; and a byte that cannot start a UTF-8
sequence decodes to the replacement character U+FFFD. -/
theorem file_field_lossy (path : List Nat) (rule : RuleConfig) :
    (∀ (ms : List NodeMatch) (jsons : List MatchJSON),
        matchDocs ms (to_string_lossy path) = .ok jsons →
        jsons.map (fun r => r.file) = ms.map fun _ => to_string_lossy path)
    ∧ (∀ (ds : List Diff) (jsons : List MatchJSON),
        diffDocs ds (to_string_lossy path) = .ok jsons →
        jsons.map (fun r => r.file) = ds.map fun _ => to_string_lossy path)
    ∧ (∀ (ds : List Diff) (jsons : List RuleMatchJSON),
        ruleDiffDocs ds (to_string_lossy path) rule = .ok jsons →
        jsons.map (fun r => r.matched.file) = ds.map fun _ => to_string_lossy path)
    ∧ (∀ s : List Char, to_string_lossy (utf8Encode s) = String.mk s)
    ∧ (∀ s t : List Char,
        to_string_lossy (utf8Encode s ++ 0xFF :: utf8Encode t)
          = String.mk (s ++ replacementChar :: t)) := by
  refine ⟨?_, ?_, ?_, to_string_lossy_encode, to_string_lossy_invalid⟩
  · intro ms jsons h
    refine buildDocs_ok_map ?_ h
    intro a b hb
    obtain ⟨mv, hbv⟩ := matchJSON_new_ok a _ b hb
    rw [hbv]
  · intro ds jsons h
    refine buildDocs_ok_map ?_ h
    intro a b hb
    cases hmn : MatchJSON.new a.node_match (to_string_lossy path) with
    | error e => rw [hmn] at hb; cases hb
    | ok m =>
      rw [hmn] at hb
      simp only [Except.map] at hb
      injection hb with hb
      obtain ⟨mv, hmv⟩ := matchJSON_new_ok a.node_match _ m hmn
      rw [← hb, hmv]
  · intro ds jsons h
    refine buildDocs_ok_map ?_ h
    intro a b hb
    cases hmn : RuleMatchJSON.new a.node_match (to_string_lossy path) rule with
    | error e => rw [hmn] at hb; cases hb
    | ok m =>
      rw [hmn] at hb
      simp only [Except.map] at hb
      injection hb with hb
      obtain ⟨m0, hm0, hmv⟩ := ruleMatchJSON_new_ok a.node_match _ rule m hmn
      obtain ⟨mv, hmv0⟩ := matchJSON_new_ok a.node_match _ m0 hm0
      rw [← hb, hmv, hmv0]

theorem file_field_lossy_witness :
    [sampleRecordPlain].map (fun r => r.file)
      = [sampleMatch].map (fun _ => to_string_lossy []) :=
  (file_field_lossy [] sampleRule).1 [sampleMatch] [sampleRecordPlain]
    (by simp [matchDocs, buildDocs, MatchJSON.new, from_env, sampleMatch, emptyEnv,
      NodeMatch.get_env, MetaVarEnv.get_matched_variables, Except.map, NodeMatch.text,
      sampleNode, sampleRecordPlain])


/-! ### Parser support lemmas -/

theorem skipWs_ws_append (w s : List Char) (hw : ∀ c ∈ w, isWsChar c = true) :
    skipWs (w ++ s) = skipWs s := by
  induction w with
  | nil => rfl
  | cons c t ih =>
    have hc : isWsChar c = true := hw c (by simp)
    simp only [skipWs, List.cons_append, List.dropWhile_cons, hc, if_true]
    exact ih fun c hc => hw c (by simp [hc])

theorem skipWs_not_ws (c : Char) (s : List Char) (hc : isWsChar c = false) :
    skipWs (c :: s) = c :: s := by
  simp [skipWs, List.dropWhile_cons, hc]

theorem ws_noDigit (c : Char) (hc : isWsChar c = true) : digitVal c = none := by
  rw [isWsChar] at hc
  simp only [Bool.or_eq_true, beq_iff_eq] at hc
  rcases hc with (h | h) | (h | h) <;> subst h <;> decide

theorem digitVal_digitChar (dd : Nat) (h : dd < 10) :
    digitVal (Char.ofNat (48 + dd)) = some dd := by
  interval_cases dd <;> decide

theorem natToDigits_shape (n : Nat) :
    ∃ dd t, natToDigits n = Char.ofNat (48 + dd) :: t ∧ dd < 10 := by
  induction n using Nat.strong_induction_on with
  | _ n ih =>
    by_cases h : n < 10
    · exact ⟨n, [], by rw [natToDigits, if_pos h], h⟩
    · obtain ⟨dd, t, ht, hdd⟩ := ih (n / 10) (by omega)
      refine ⟨dd, t ++ [Char.ofNat (48 + n % 10)], ?_, hdd⟩
      rw [natToDigits, if_neg h, ht, List.cons_append]

theorem natToDigits_all_digits (n : Nat) :
    ∀ c ∈ natToDigits n, ∃ dd, dd < 10 ∧ c = Char.ofNat (48 + dd) := by
  induction n using Nat.strong_induction_on with
  | _ n ih =>
    intro c hc
    by_cases h : n < 10
    · rw [natToDigits, if_pos h] at hc
      simp at hc
      exact ⟨n, h, hc⟩
    · rw [natToDigits, if_neg h] at hc
      rcases List.mem_append.mp hc with hm | hm
      · exact ih (n / 10) (by omega) c hm
      · simp at hm
        exact ⟨n % 10, by omega, hm⟩

/-- Heads of serializations: never whitespace, never a closing
bracket, a closing brace, a comma or a quote-closing conflict. -/
theorem serJson_head (d : Nat) (v : Json) :
    ∃ c t, serJson d v = c :: t ∧ isWsChar c = false ∧ c ≠ ']' ∧ c ≠ rbraceChar := by
  cases v with
  | null => exact ⟨'n', _, by rw [serJson], by decide⟩
  | bool b =>
    cases b
    · exact ⟨'f', _, by rw [serJson], by decide⟩
    · exact ⟨'t', _, by rw [serJson], by decide⟩
  | num n =>
    obtain ⟨dd, t, ht, hdd⟩ := natToDigits_shape n
    refine ⟨Char.ofNat (48 + dd), t, by rw [serJson, ht], ?_⟩
    interval_cases dd <;> decide
  | str s =>
    exact ⟨'\"', _, by rw [serJson, serStr, List.cons_append], by decide⟩
  | arr xs =>
    cases xs with
    | nil => exact ⟨'[', _, by rw [serJson], by decide⟩
    | cons x t => exact ⟨'[', _, by rw [serJson], by decide⟩
  | obj fs =>
    cases fs with
    | nil => exact ⟨lbraceChar, _, by rw [serJson], by decide⟩
    | cons f t => exact ⟨lbraceChar, _, by rw [serJson], by decide⟩


theorem parseHexDigit_hexChar (d : Nat) (h : d < 16) :
    parseHexDigit (hexChar d) = some d := by
  interval_cases d <;> decide

theorem parseStrBody_escapeChar (c : Char) (r : List Char) :
    parseStrBody (escapeChar c ++ r) =
      (parseStrBody r).map fun p => (c :: p.1, p.2) := by
  rw [escapeChar]
  by_cases h1 : c = '\"'
  · subst h1; rw [parseStrBody.eq_def]; simp [escDecode]
  · rw [if_neg h1]
    by_cases h2 : c = '\\'
    · subst h2; rw [parseStrBody.eq_def]; simp [escDecode]
    · rw [if_neg h2]
      by_cases h3 : c = Char.ofNat 8
      · subst h3; rw [parseStrBody.eq_def]; simp [escDecode]
      · rw [if_neg h3]
        by_cases h4 : c = '\t'
        · subst h4; rw [parseStrBody.eq_def]; simp [escDecode]
        · rw [if_neg h4]
          by_cases h5 : c = '\n'
          · subst h5; rw [parseStrBody.eq_def]; simp [escDecode]
          · rw [if_neg h5]
            by_cases h6 : c = Char.ofNat 12
            · subst h6; rw [parseStrBody.eq_def]; simp [escDecode]
            · rw [if_neg h6]
              by_cases h7 : c = '\r'
              · subst h7; rw [parseStrBody.eq_def]; simp [escDecode]
              · rw [if_neg h7]
                by_cases h8 : c.toNat < 0x20
                · rw [if_pos h8]
                  have hne : c ≠ '\"' := h1
                  have hhi : parseHexDigit (hexChar (c.toNat / 16)) =
                      some (c.toNat / 16) := parseHexDigit_hexChar _ (by omega)
                  have hlo : parseHexDigit (hexChar (c.toNat % 16)) =
                      some (c.toNat % 16) := parseHexDigit_hexChar _ (by omega)
                  rw [parseStrBody.eq_def]
                  have h0 : parseHexDigit '0' = some 0 := by decide
                  have harith : ((0 * 16 + 0) * 16 + c.toNat / 16) * 16 + c.toNat % 16
                      = c.toNat := by omega
                  have harith2 : c.toNat / 16 * 16 + c.toNat % 16 = c.toNat := by omega
                  simp [h0, hhi, hlo, harith, harith2, Char.ofNat_toNat]
                · rw [if_neg h8]
                  rw [List.singleton_append, parseStrBody.eq_def]
                  simp [h1, h2]

theorem parseStrBody_escape (s rest : List Char) :
    parseStrBody ((s.map escapeChar).flatten ++ '\"' :: rest) = some (s, rest) := by
  induction s with
  | nil =>
    rw [List.map_nil, List.flatten_nil, List.nil_append, parseStrBody.eq_def]
    simp
  | cons c t ih =>
    rw [List.map_cons, List.flatten_cons, List.append_assoc, parseStrBody_escapeChar,
      ih]
    rfl


theorem parseDigitsGo_digits (l : List Char) :
    ∀ (acc : Nat) (rest : List Char),
      (∀ c ∈ l, (digitVal c).isSome) → noDigitHead rest →
      parseDigitsGo acc (l ++ rest) =
        (l.foldl (fun a c => a * 10 + (digitVal c).getD 0) acc, rest) := by
  induction l with
  | nil =>
    intro acc rest hl hrest
    cases rest with
    | nil => rfl
    | cons c t =>
      rw [noDigitHead] at hrest
      rw [List.nil_append, List.foldl_nil, parseDigitsGo.eq_def]
      simp [hrest]
  | cons c l ih =>
    intro acc rest hl hrest
    have hc : (digitVal c).isSome := hl c (by simp)
    cases hd : digitVal c with
    | none => rw [hd] at hc; simp at hc
    | some d =>
      rw [List.cons_append, parseDigitsGo.eq_def]
      simp only [hd, List.foldl_cons, Option.getD_some]
      exact ih (acc * 10 + d) rest (fun c hc => hl c (by simp [hc])) hrest

theorem natToDigits_foldl (n : Nat) : ∀ acc : Nat,
    (natToDigits n).foldl (fun a c => a * 10 + (digitVal c).getD 0) acc
      = acc * 10 ^ (natToDigits n).length + n := by
  induction n using Nat.strong_induction_on with
  | _ n ih =>
    intro acc
    by_cases h : n < 10
    · rw [natToDigits, if_pos h]
      simp [digitVal_digitChar n h]
    · rw [natToDigits, if_neg h, List.foldl_append, List.foldl_cons, List.foldl_nil,
        ih (n / 10) (by omega) acc, List.length_append,
        digitVal_digitChar (n % 10) (by omega)]
      simp only [Option.getD_some, List.length_cons, List.length_nil]
      rw [pow_succ, ← mul_assoc]
      generalize acc * 10 ^ (natToDigits (n / 10)).length = A
      omega

theorem parseDigitsGo_natToDigits (n : Nat) (rest : List Char)
    (hrest : noDigitHead rest) :
    parseDigitsGo 0 (natToDigits n ++ rest) = (n, rest) := by
  have hdigits : ∀ c ∈ natToDigits n, (digitVal c).isSome := by
    intro c hc
    obtain ⟨dd, hdd, hcc⟩ := natToDigits_all_digits n c hc
    rw [hcc, digitVal_digitChar dd hdd]
    rfl
  rw [parseDigitsGo_digits _ 0 rest hdigits hrest, natToDigits_foldl]
  simp


theorem parseValue_ws (fuel : Nat) (w s : List Char)
    (hw : ∀ c ∈ w, isWsChar c = true) :
    parseValue fuel (w ++ s) = parseValue fuel s := by
  cases fuel with
  | zero => rfl
  | succ f =>
    simp only [parseValue.eq_def, skipWs_ws_append w s hw]

theorem noDigitHead_cons (c : Char) (t : List Char) (hc : digitVal c = none) :
    noDigitHead (c :: t) := hc

theorem noDigitHead_ws_append (post : List Char) (d0 : Char) (rest : List Char)
    (hpost : ∀ c ∈ post, isWsChar c = true) (hd : digitVal d0 = none) :
    noDigitHead (post ++ d0 :: rest) := by
  cases post with
  | nil => exact hd
  | cons c t => exact ws_noDigit c (hpost c (by simp))

theorem skipWs_ws_close (post : List Char) (d0 : Char) (rest : List Char)
    (hpost : ∀ c ∈ post, isWsChar c = true) (hd : isWsChar d0 = false) :
    skipWs (post ++ d0 :: rest) = d0 :: rest := by
  rw [skipWs_ws_append post _ hpost, skipWs_not_ws d0 rest hd]

theorem chainFuel_nonzero (e : List Char × Nat × Json)
    (t : List (List Char × Nat × Json)) : 1 ≤ chainFuel (e :: t) := by
  simp [chainFuel]
  omega

theorem chainFuel_cons (e : List Char × Nat × Json)
    (t : List (List Char × Nat × Json)) :
    chainFuel (e :: t) = 1 + jsonFuel e.2.2 + chainFuel t := by
  simp [chainFuel]

theorem fieldsChainFuel_cons (e : List Char × String × Nat × Json)
    (t : List (List Char × String × Nat × Json)) :
    fieldsChainFuel (e :: t) = 1 + jsonFuel e.2.2.2 + fieldsChainFuel t := by
  simp [fieldsChainFuel]

theorem chainFuel_map (items : List Json) (w : List Char) (d : Nat) :
    chainFuel (items.map fun v => (w, d, v)) + 1 = jsonFuelItems items := by
  induction items with
  | nil => simp [chainFuel, jsonFuelItems]
  | cons x t ih =>
    simp [chainFuel_cons, jsonFuelItems]
    omega

theorem fieldsChainFuel_map (fs : List (String × Json)) (w : List Char) (d : Nat) :
    fieldsChainFuel (fs.map fun f => (w, f.1, d, f.2)) + 1 = jsonFuelFields fs := by
  induction fs with
  | nil => simp [fieldsChainFuel, jsonFuelFields]
  | cons f t ih =>
    simp [fieldsChainFuel_cons, jsonFuelFields]
    omega

theorem chainFuel_anyHead (w w' : List Char) (d : Nat) (x : Json)
    (t : List (List Char × Nat × Json)) :
    chainFuel ((w, d, x) :: t) = chainFuel ((w', d, x) :: t) := by
  rw [chainFuel_cons, chainFuel_cons]


theorem itemsChain_singleton (post rest : List Char) (e : List Char × Nat × Json) :
    itemsChain post rest [e] = e.1 ++ (serJson e.2.1 e.2.2 ++ (post ++ ']' :: rest)) := rfl

theorem itemsChain_cons2 (post rest : List Char) (e it : List Char × Nat × Json)
    (t : List (List Char × Nat × Json)) :
    itemsChain post rest (e :: it :: t)
      = e.1 ++ (serJson e.2.1 e.2.2 ++ ',' :: itemsChain post rest (it :: t)) := rfl

theorem fieldsChain_singleton (post rest : List Char)
    (e : List Char × String × Nat × Json) :
    fieldsChain post rest [e]
      = e.1 ++ (serStr e.2.1 ++ ':' :: ' ' ::
          (serJson e.2.2.1 e.2.2.2 ++ (post ++ rbraceChar :: rest))) := rfl

theorem fieldsChain_cons2 (post rest : List Char) (e f : List Char × String × Nat × Json)
    (t : List (List Char × String × Nat × Json)) :
    fieldsChain post rest (e :: f :: t)
      = e.1 ++ (serStr e.2.1 ++ ':' :: ' ' ::
          (serJson e.2.2.1 e.2.2.2 ++ ',' :: fieldsChain post rest (f :: t))) := rfl

theorem serItems_chain (d' : Nat) (items : List Json) (post rest : List Char)
    (hne : items ≠ []) :
    '\n' :: (serItems d' items ++ (post ++ ']' :: rest))
      = itemsChain post rest (items.map fun v => ('\n' :: indentChars d', d', v)) := by
  induction items with
  | nil => exact absurd rfl hne
  | cons x t ih =>
    cases t with
    | nil =>
      rw [serItems, List.map_cons, List.map_nil, itemsChain_singleton]
      simp [List.append_assoc]
    | cons y t2 =>
      have ihy := ih (by simp)
      rw [List.map_cons] at ihy
      rw [serItems, List.map_cons, List.map_cons, itemsChain_cons2, ← ihy]
      simp [List.append_assoc]

theorem serFields_chain (d' : Nat) (fs : List (String × Json)) (post rest : List Char)
    (hne : fs ≠ []) :
    '\n' :: (serFields d' fs ++ (post ++ rbraceChar :: rest))
      = fieldsChain post rest (fs.map fun f => ('\n' :: indentChars d', f.1, d', f.2)) := by
  induction fs with
  | nil => exact absurd rfl hne
  | cons f t ih =>
    obtain ⟨k, v⟩ := f
    cases t with
    | nil =>
      rw [serFields, List.map_cons, List.map_nil, fieldsChain_singleton]
      simp [List.append_assoc]
    | cons g t2 =>
      have ihy := ih (by simp)
      rw [List.map_cons] at ihy
      rw [serFields, List.map_cons, List.map_cons, fieldsChain_cons2, ← ihy]
      simp [List.append_assoc]

theorem skipWs_ser_append (d : Nat) (x : Json) (s : List Char) :
    skipWs (serJson d x ++ s) = serJson d x ++ s := by
  obtain ⟨c, t, hct, hws, _, _⟩ := serJson_head d x
  rw [hct, List.cons_append, skipWs_not_ws c _ hws]

theorem indentChars_ws (n : Nat) : ∀ c ∈ indentChars n, isWsChar c = true := by
  intro c hc
  rw [indentChars] at hc
  have := List.eq_of_mem_replicate hc
  subst this
  decide

theorem itemsChain_strip (post rest w : List Char) (d : Nat) (x : Json)
    (t : List (List Char × Nat × Json)) (hw : ∀ c ∈ w, isWsChar c = true) :
    skipWs (itemsChain post rest ((w, d, x) :: t))
      = itemsChain post rest (([], d, x) :: t) := by
  cases t with
  | nil =>
    rw [itemsChain_singleton, itemsChain_singleton]
    rw [skipWs_ws_append _ _ hw]
    exact skipWs_ser_append d x _
  | cons it t2 =>
    rw [itemsChain_cons2, itemsChain_cons2]
    rw [skipWs_ws_append _ _ hw]
    exact skipWs_ser_append d x _

theorem fieldsChain_strip (post rest w : List Char) (k : String) (d : Nat) (x : Json)
    (t : List (List Char × String × Nat × Json)) (hw : ∀ c ∈ w, isWsChar c = true) :
    skipWs (fieldsChain post rest ((w, k, d, x) :: t))
      = fieldsChain post rest (([], k, d, x) :: t) := by
  cases t with
  | nil =>
    rw [fieldsChain_singleton, fieldsChain_singleton]
    rw [skipWs_ws_append _ _ hw, serStr, List.cons_append, List.cons_append,
      skipWs_not_ws _ _ (by decide)]
    simp [List.append_assoc]
  | cons it t2 =>
    rw [fieldsChain_cons2, fieldsChain_cons2]
    rw [skipWs_ws_append _ _ hw, serStr, List.cons_append, List.cons_append,
      skipWs_not_ws _ _ (by decide)]
    simp [List.append_assoc]


theorem nlIndent_ws (n : Nat) : ∀ c ∈ '\n' :: indentChars n, isWsChar c = true := by
  intro c hc
  rcases List.mem_cons.mp hc with h | h
  · subst h
    decide
  · exact indentChars_ws n c h

theorem serStr_append (k : String) (X : List Char) :
    serStr k ++ X = '\"' :: ((k.data.map escapeChar).flatten ++ '\"' :: X) := by
  rw [serStr]
  simp [List.append_assoc]


theorem map_item_val (w : List Char) (d : Nat) (t : List Json) :
    List.map ((fun e : List Char × Nat × Json => e.2.2) ∘ fun v => (w, d, v)) t = t := by
  induction t with
  | nil => rfl
  | cons a b ihb =>
    rw [List.map_cons, ihb]
    rfl

theorem map_field_val (w : List Char) (d : Nat) (t : List (String × Json)) :
    List.map ((fun e : List Char × String × Nat × Json => (e.2.1, e.2.2.2))
      ∘ fun g => (w, g.1, d, g.2)) t = t := by
  induction t with
  | nil => rfl
  | cons a b ihb =>
    rw [List.map_cons, ihb]
    rfl

theorem parseItems_succ (fuel : Nat) (s : List Char) (acc : List Json) :
    parseItems (fuel + 1) s acc =
      (parseValue fuel s).bind fun p =>
        match skipWs p.2 with
        | [] => none
        | d :: r2 =>
          if d = ',' then parseItems fuel r2 (acc ++ [p.1])
          else if d = ']' then some (acc ++ [p.1], r2)
          else none := rfl

theorem parseFields_succ (fuel : Nat) (s : List Char)
    (acc : List (String × Json)) :
    parseFields (fuel + 1) s acc =
      (match skipWs s with
      | [] => none
      | q :: r1 =>
        if q = '\"' then
          (parseStrBody r1).bind fun kp =>
            match skipWs kp.2 with
            | [] => none
            | colon :: r2 =>
              if colon = ':' then
                (parseValue fuel r2).bind fun p =>
                  match skipWs p.2 with
                  | [] => none
                  | d :: r4 =>
                    if d = ',' then
                      parseFields fuel r4 (acc ++ [(String.mk kp.1, p.1)])
                    else if d = rbraceChar then
                      some (acc ++ [(String.mk kp.1, p.1)], r4)
                    else none
              else none
        else none) := rfl

theorem parser_roundtrip : ∀ fuel : Nat,
    (∀ (v : Json) (d : Nat) (rest : List Char), jsonFuel v ≤ fuel → noDigitHead rest →
      parseValue fuel (serJson d v ++ rest) = some (v, rest))
    ∧ (∀ (l : List (List Char × Nat × Json)) (post rest : List Char) (acc : List Json),
        (∀ e ∈ l, ∀ c ∈ e.1, isWsChar c = true) →
        (∀ c ∈ post, isWsChar c = true) →
        l ≠ [] → chainFuel l ≤ fuel →
        parseItems fuel (itemsChain post rest l) acc
          = some (acc ++ l.map fun e => e.2.2, rest))
    ∧ (∀ (l : List (List Char × String × Nat × Json)) (post rest : List Char)
          (acc : List (String × Json)),
        (∀ e ∈ l, ∀ c ∈ e.1, isWsChar c = true) →
        (∀ c ∈ post, isWsChar c = true) →
        l ≠ [] → fieldsChainFuel l ≤ fuel →
        parseFields fuel (fieldsChain post rest l) acc
          = some (acc ++ l.map fun e => (e.2.1, e.2.2.2), rest)) := by
  intro fuel
  induction fuel with
  | zero =>
    refine ⟨?_, ?_, ?_⟩
    · intro v d rest hf _
      cases v <;> simp [jsonFuel] at hf
    · intro l post rest acc _ _ hne hf
      cases l with
      | nil => exact absurd rfl hne
      | cons e t =>
        have := chainFuel_nonzero e t
        omega
    · intro l post rest acc _ _ hne hf
      cases l with
      | nil => exact absurd rfl hne
      | cons e t =>
        rw [fieldsChainFuel_cons] at hf
        omega
  | succ fuel ih =>
    obtain ⟨ihv, ihi, ihf⟩ := ih
    refine ⟨?_, ?_, ?_⟩
    · intro v d rest hf hrest
      cases v with
      | null =>
        rw [serJson]
        simp [parseValue.eq_def, skipWs, isWsChar, digitVal, lbraceChar]
      | bool b =>
        cases b with
        | true =>
          rw [serJson]
          simp [parseValue.eq_def, skipWs, isWsChar, digitVal, lbraceChar]
        | false =>
          rw [serJson]
          simp [parseValue.eq_def, skipWs, isWsChar, digitVal, lbraceChar]
      | num n =>
        obtain ⟨dd, t, ht, hdd⟩ := natToDigits_shape n
        rw [serJson, ht, List.cons_append]
        simp only [parseValue.eq_def]
        rw [skipWs_not_ws _ _ (by interval_cases dd <;> decide)]
        have e1 : (Char.ofNat (48 + dd) = '\"') = False :=
          eq_false (by interval_cases dd <;> decide)
        have e2 : (Char.ofNat (48 + dd) = '[') = False :=
          eq_false (by interval_cases dd <;> decide)
        have e3 : (Char.ofNat (48 + dd) = lbraceChar) = False :=
          eq_false (by interval_cases dd <;> decide)
        have e4 : (digitVal (Char.ofNat (48 + dd))).isSome = true := by
          rw [digitVal_digitChar dd hdd]
          rfl
        simp only [e1, e2, e3, e4, if_false, if_true]
        rw [show Char.ofNat (48 + dd) :: (t ++ rest) = natToDigits n ++ rest from by
          rw [ht, List.cons_append]]
        rw [parseDigitsGo_natToDigits n rest hrest]
      | str s =>
        rw [serJson, serStr, List.cons_append, List.cons_append]
        simp only [parseValue.eq_def]
        rw [skipWs_not_ws _ _ (by decide)]
        simp only [reduceIte]
        rw [List.append_assoc, List.singleton_append, parseStrBody_escape s.data rest]
        rfl
      | arr xs =>
        cases xs with
        | nil =>
          rw [serJson]
          simp only [List.cons_append, List.nil_append, parseValue.eq_def]
          rw [skipWs_not_ws _ _ (by decide)]
          simp only [reduceIte]
          rw [if_neg (by decide)]
          rw [skipWs_not_ws _ _ (by decide)]
          simp only [reduceIte]
        | cons x t =>
          have hchain := serItems_chain (d + 1) (x :: t) ('\n' :: indentChars d) rest
            (by simp)
          have hstream : serJson d (.arr (x :: t)) ++ rest
              = '[' :: itemsChain ('\n' :: indentChars d) rest
                  ((x :: t).map fun v => ('\n' :: indentChars (d + 1), d + 1, v)) := by
            rw [serJson, ← hchain]
            simp [List.append_assoc]
          rw [hstream]
          simp only [parseValue.eq_def]
          rw [skipWs_not_ws _ _ (by decide)]
          simp only [reduceIte]
          rw [if_neg (by decide)]
          rw [List.map_cons,
            itemsChain_strip _ _ _ _ _ _ (nlIndent_ws (d + 1))]
          obtain ⟨c0, s0, hx0, hws0, hnb0, hnb0b⟩ := serJson_head (d + 1) x
          have hdecomp : ∃ S, itemsChain ('\n' :: indentChars d) rest
              (([], d + 1, x) :: t.map fun v => ('\n' :: indentChars (d + 1), d + 1, v))
                = c0 :: S := by
            cases ht : t.map fun v => ('\n' :: indentChars (d + 1), d + 1, v) with
            | nil =>
              refine ⟨s0 ++ ('\n' :: indentChars d ++ ']' :: rest), ?_⟩
              rw [itemsChain_singleton, hx0]
              simp
            | cons it tl2 =>
              refine ⟨s0 ++ ',' :: itemsChain ('\n' :: indentChars d) rest (it :: tl2), ?_⟩
              rw [itemsChain_cons2, hx0]
              simp
          obtain ⟨S, hS⟩ := hdecomp
          rw [hS]
          simp only [reduceIte]
          rw [if_neg hnb0]
          rw [← hS]
          have hcm := chainFuel_map t ('\n' :: indentChars (d + 1)) (d + 1)
          have hcc := chainFuel_cons ([], d + 1, x)
            (t.map fun v => ('\n' :: indentChars (d + 1), d + 1, v))
          have hf1 : jsonFuel (.arr (x :: t)) = 1 + jsonFuelItems (x :: t) := by
            rw [jsonFuel]
          have hf2 : jsonFuelItems (x :: t) = 1 + jsonFuel x + jsonFuelItems t := by
            rw [jsonFuelItems]
          rw [ihi (([], d + 1, x) :: t.map fun v => ('\n' :: indentChars (d + 1), d + 1, v))
            ('\n' :: indentChars d) rest []
            (by
              intro e he
              rcases List.mem_cons.mp he with h | h
              · subst h
                intro c hc
                simp at hc
              · obtain ⟨v, _, hv⟩ := List.mem_map.mp h
                intro c hc
                rw [← hv] at hc
                exact nlIndent_ws (d + 1) c hc)
            (nlIndent_ws d) (by simp)
            (by simp only [hcc]; omega)]
          simp [List.map_map, map_item_val]
      | obj fs =>
        cases fs with
        | nil =>
          rw [serJson]
          simp only [List.cons_append, List.nil_append, parseValue.eq_def]
          rw [skipWs_not_ws _ _ (by decide)]
          simp only [reduceIte]
          rw [if_neg (by decide), if_neg (by decide)]
          rw [skipWs_not_ws _ _ (by decide)]
          simp only [reduceIte]
        | cons f t =>
          have hchain := serFields_chain (d + 1) (f :: t) ('\n' :: indentChars d) rest
            (by simp)
          have hstream : serJson d (.obj (f :: t)) ++ rest
              = lbraceChar :: fieldsChain ('\n' :: indentChars d) rest
                  ((f :: t).map fun g => ('\n' :: indentChars (d + 1), g.1, d + 1, g.2)) := by
            rw [serJson, ← hchain]
            simp [List.append_assoc]
          rw [hstream]
          simp only [parseValue.eq_def]
          rw [skipWs_not_ws _ _ (by decide)]
          simp only [reduceIte]
          rw [if_neg (by decide), if_neg (by decide)]
          rw [List.map_cons,
            fieldsChain_strip _ _ _ _ _ _ _ (nlIndent_ws (d + 1))]
          have hdecomp : ∃ S, fieldsChain ('\n' :: indentChars d) rest
              (([], f.1, d + 1, f.2) ::
                t.map fun g => ('\n' :: indentChars (d + 1), g.1, d + 1, g.2))
                = '\"' :: S := by
            cases ht : t.map fun g => ('\n' :: indentChars (d + 1), g.1, d + 1, g.2) with
            | nil =>
              refine ⟨(f.1.data.map escapeChar).flatten ++ '\"' :: (':' :: ' ' ::
                (serJson (d + 1) f.2 ++ ('\n' :: indentChars d ++ rbraceChar :: rest))), ?_⟩
              rw [fieldsChain_singleton]
              simp only [List.nil_append]
              rw [serStr_append]
            | cons it tl2 =>
              refine ⟨(f.1.data.map escapeChar).flatten ++ '\"' :: (':' :: ' ' ::
                (serJson (d + 1) f.2 ++
                  ',' :: fieldsChain ('\n' :: indentChars d) rest (it :: tl2))), ?_⟩
              rw [fieldsChain_cons2]
              simp only [List.nil_append]
              rw [serStr_append]
          obtain ⟨S, hS⟩ := hdecomp
          rw [hS]
          simp only [reduceIte]
          rw [← hS]
          have hcm := fieldsChainFuel_map t ('\n' :: indentChars (d + 1)) (d + 1)
          have hcc := fieldsChainFuel_cons ([], f.1, d + 1, f.2)
            (t.map fun g => ('\n' :: indentChars (d + 1), g.1, d + 1, g.2))
          have hf1 : jsonFuel (.obj (f :: t)) = 1 + jsonFuelFields (f :: t) := by
            rw [jsonFuel]
          have hf2 : jsonFuelFields (f :: t) = 1 + jsonFuel f.2 + jsonFuelFields t := by
            rw [jsonFuelFields]
          rw [ihf (([], f.1, d + 1, f.2) ::
              t.map fun g => ('\n' :: indentChars (d + 1), g.1, d + 1, g.2))
            ('\n' :: indentChars d) rest []
            (by
              intro e he
              rcases List.mem_cons.mp he with h | h
              · subst h
                intro c hc
                simp at hc
              · obtain ⟨v, _, hv⟩ := List.mem_map.mp h
                intro c hc
                rw [← hv] at hc
                exact nlIndent_ws (d + 1) c hc)
            (nlIndent_ws d) (by simp)
            (by simp only [hcc]; omega)]
          have hqb : ¬ ('\"' = rbraceChar) := by decide
          simp [List.map_map, map_field_val, hqb]
    · intro l post rest acc hl hpost hne hf
      cases l with
      | nil => exact absurd rfl hne
      | cons e tl =>
        have hw : ∀ c ∈ e.1, isWsChar c = true := hl e (by simp)
        rw [parseItems_succ]
        cases tl with
        | nil =>
          have hfx : jsonFuel e.2.2 ≤ fuel := by
            have h1 := chainFuel_cons e []
            have h2 : chainFuel ([] : List (List Char × Nat × Json)) = 0 := by
              simp [chainFuel]
            omega
          have hnd : noDigitHead (post ++ ']' :: rest) :=
            noDigitHead_ws_append post ']' rest hpost (by decide)
          rw [itemsChain_singleton, parseValue_ws fuel e.1 _ hw,
            ihv e.2.2 e.2.1 _ hfx hnd]
          simp only [Option.bind]
          rw [skipWs_ws_close post ']' rest hpost (by decide)]
          simp only [reduceIte]
          rw [if_neg (by decide)]
          simp
        | cons it tl2 =>
          have hfx : jsonFuel e.2.2 ≤ fuel := by
            have h1 := chainFuel_cons e (it :: tl2)
            omega
          rw [itemsChain_cons2, parseValue_ws fuel e.1 _ hw,
            ihv e.2.2 e.2.1 _ hfx (noDigitHead_cons ',' _ (by decide))]
          simp only [Option.bind]
          rw [skipWs_not_ws ',' _ (by decide)]
          simp only [reduceIte]
          rw [ihi (it :: tl2) post rest (acc ++ [e.2.2])
            (fun e2 he2 => hl e2 (by simp [he2])) hpost (by simp)
            (by have h1 := chainFuel_cons e (it :: tl2); omega)]
          simp
    · intro l post rest acc hl hpost hne hf
      cases l with
      | nil => exact absurd rfl hne
      | cons e tl =>
        have hw : ∀ c ∈ e.1, isWsChar c = true := hl e (by simp)
        rw [parseFields_succ]
        cases tl with
        | nil =>
          have hfx : jsonFuel e.2.2.2 ≤ fuel := by
            have h1 := fieldsChainFuel_cons e []
            have h2 : fieldsChainFuel ([] : List (List Char × String × Nat × Json)) = 0 := by
              simp [fieldsChainFuel]
            omega
          have hnd : noDigitHead (post ++ rbraceChar :: rest) :=
            noDigitHead_ws_append post rbraceChar rest hpost (by decide)
          rw [fieldsChain_singleton, skipWs_ws_append _ _ hw, serStr_append,
            skipWs_not_ws _ _ (by decide)]
          simp only [reduceIte]
          rw [parseStrBody_escape e.2.1.data _]
          simp only [Option.bind]
          rw [skipWs_not_ws ':' _ (by decide)]
          simp only [reduceIte]
          have hsp : parseValue fuel (' ' :: (serJson e.2.2.1 e.2.2.2
              ++ (post ++ rbraceChar :: rest)))
              = parseValue fuel (serJson e.2.2.1 e.2.2.2 ++ (post ++ rbraceChar :: rest)) :=
            parseValue_ws fuel [' '] _ (by decide)
          rw [hsp, ihv e.2.2.2 e.2.2.1 _ hfx hnd]
          simp only [Option.bind]
          rw [skipWs_ws_close post rbraceChar rest hpost (by decide)]
          simp only [reduceIte]
          rw [if_neg (by decide)]
          simp
        | cons it tl2 =>
          have hfx : jsonFuel e.2.2.2 ≤ fuel := by
            have h1 := fieldsChainFuel_cons e (it :: tl2)
            omega
          rw [fieldsChain_cons2, skipWs_ws_append _ _ hw, serStr_append,
            skipWs_not_ws _ _ (by decide)]
          simp only [reduceIte]
          rw [parseStrBody_escape e.2.1.data _]
          simp only [Option.bind]
          rw [skipWs_not_ws ':' _ (by decide)]
          simp only [reduceIte]
          have hsp : parseValue fuel (' ' :: (serJson e.2.2.1 e.2.2.2
              ++ ',' :: fieldsChain post rest (it :: tl2)))
              = parseValue fuel (serJson e.2.2.1 e.2.2.2
                  ++ ',' :: fieldsChain post rest (it :: tl2)) :=
            parseValue_ws fuel [' '] _ (by decide)
          rw [hsp, ihv e.2.2.2 e.2.2.1 _ hfx (noDigitHead_cons ',' _ (by decide))]
          simp only [Option.bind]
          rw [skipWs_not_ws ',' _ (by decide)]
          simp only [reduceIte]
          rw [ihf (it :: tl2) post rest (acc ++ [(String.mk e.2.1.data, e.2.2.2)])
            (fun e2 he2 => hl e2 (by simp [he2])) hpost (by simp)
            (by have h1 := fieldsChainFuel_cons e (it :: tl2); omega)]
          simp

theorem jsonFuel_pos (v : Json) : 1 ≤ jsonFuel v := by
  cases v <;> simp [jsonFuel] <;> omega

theorem jsonFuelItems_pos (l : List Json) : 1 ≤ jsonFuelItems l := by
  cases l <;> simp [jsonFuelItems] <;> omega

theorem jsonFuelFields_pos (l : List (String × Json)) : 1 ≤ jsonFuelFields l := by
  cases l <;> simp [jsonFuelFields] <;> omega

theorem serJson_fuel_len : ∀ N : Nat,
    (∀ v, jsonFuel v ≤ N → ∀ d, jsonFuel v ≤ (serJson d v).length) ∧
    (∀ l, jsonFuelItems l ≤ N → ∀ d, jsonFuelItems l ≤ (serItems d l).length + 3) ∧
    (∀ l, jsonFuelFields l ≤ N →
      ∀ d, jsonFuelFields l ≤ (serFields d l).length + 3) := by
  intro N
  induction N with
  | zero =>
    refine ⟨fun v hv => absurd hv (by have := jsonFuel_pos v; omega),
      fun l hl => absurd hl (by have := jsonFuelItems_pos l; omega),
      fun l hl => absurd hl (by have := jsonFuelFields_pos l; omega)⟩
  | succ N ih =>
    obtain ⟨ihv, ihi, ihf⟩ := ih
    refine ⟨?_, ?_, ?_⟩
    · intro v hv d
      cases v with
      | null => simp [jsonFuel, serJson]
      | bool b => cases b <;> simp [jsonFuel, serJson]
      | num n =>
        obtain ⟨dd, t, ht, _⟩ := natToDigits_shape n
        simp [jsonFuel, serJson, ht]
      | str s =>
        simp only [jsonFuel, serJson, serStr, List.length_cons, List.length_append]
        omega
      | arr xs =>
        cases xs with
        | nil => simp [jsonFuel, jsonFuelItems, serJson]
        | cons x t =>
          have hfx : jsonFuelItems (x :: t) ≤ N := by
            simp only [jsonFuel] at hv
            omega
          have h1 := ihi (x :: t) hfx (d + 1)
          simp only [jsonFuel, serJson, List.length_cons, List.length_append,
            indentChars, List.length_replicate]
          omega
      | obj fs =>
        cases fs with
        | nil => simp [jsonFuel, jsonFuelFields, serJson]
        | cons f t =>
          have hff : jsonFuelFields (f :: t) ≤ N := by
            simp only [jsonFuel] at hv
            omega
          have h1 := ihf (f :: t) hff (d + 1)
          simp only [jsonFuel, serJson, List.length_cons, List.length_append,
            indentChars, List.length_replicate]
          omega
    · intro l hl d
      cases l with
      | nil => simp [jsonFuelItems, serItems]
      | cons x t =>
        cases t with
        | nil =>
          have hx : jsonFuel x ≤ N := by
            simp only [jsonFuelItems] at hl
            omega
          have h1 := ihv x hx d
          simp only [jsonFuelItems, serItems, List.length_append, indentChars,
            List.length_replicate]
          omega
        | cons y t2 =>
          have hstep : jsonFuelItems (x :: y :: t2)
              = 1 + jsonFuel x + jsonFuelItems (y :: t2) := rfl
          have hpx := jsonFuel_pos x
          have hpt := jsonFuelItems_pos (y :: t2)
          have hx : jsonFuel x ≤ N := by rw [hstep] at hl; omega
          have hts : jsonFuelItems (y :: t2) ≤ N := by rw [hstep] at hl; omega
          have h1 := ihv x hx d
          have h2 := ihi (y :: t2) hts d
          rw [hstep]
          simp only [serItems, List.length_append, List.length_cons, indentChars,
            List.length_replicate]
          omega
    · intro l hl d
      cases l with
      | nil => simp [jsonFuelFields, serFields]
      | cons x t =>
        obtain ⟨k, v⟩ := x
        cases t with
        | nil =>
          have hstep : jsonFuelFields [(k, v)] = 1 + jsonFuel v + 1 := rfl
          have hx : jsonFuel v ≤ N := by rw [hstep] at hl; omega
          have h1 := ihv v hx d
          rw [hstep]
          simp only [serFields, serStr, List.length_append,
            List.length_cons, indentChars, List.length_replicate]
          omega
        | cons y t2 =>
          have hstep : jsonFuelFields ((k, v) :: y :: t2)
              = 1 + jsonFuel v + jsonFuelFields (y :: t2) := rfl
          have hpx := jsonFuel_pos v
          have hpt := jsonFuelFields_pos (y :: t2)
          have hx : jsonFuel v ≤ N := by rw [hstep] at hl; omega
          have hts : jsonFuelFields (y :: t2) ≤ N := by rw [hstep] at hl; omega
          have h1 := ihv v hx d
          have h2 := ihf (y :: t2) hts d
          rw [hstep]
          simp only [serFields, serStr, List.length_append, List.length_cons,
            indentChars, List.length_replicate]
          omega

theorem jsonFuel_le_len (v : Json) (d : Nat) : jsonFuel v ≤ (serJson d v).length :=
  (serJson_fuel_len (jsonFuel v)).1 v (le_refl _) d

theorem chainFuel_le_chain_len (post rest : List Char) :
    ∀ l : List (List Char × Nat × Json),
      chainFuel l ≤ (itemsChain post rest l).length := by
  intro l
  induction l with
  | nil => simp [chainFuel, itemsChain]
  | cons e t ih =>
    have h1 := jsonFuel_le_len e.2.2 e.2.1
    cases t with
    | nil =>
      have h0 : chainFuel ([] : List (List Char × Nat × Json)) = 0 := rfl
      rw [itemsChain_singleton, chainFuel_cons, h0]
      simp only [List.length_append, List.length_cons]
      omega
    | cons f t2 =>
      rw [itemsChain_cons2, chainFuel_cons]
      simp only [List.length_append, List.length_cons]
      omega

theorem printDocsLoop_append (render : α → String) (xs ys : List α) :
    printDocsLoop render (xs ++ ys)
      = printDocsLoop render xs ++ printDocsLoop render ys := by
  induction xs with
  | nil => simp [printDocsLoop]
  | cons x t ih => simp [printDocsLoop, ih, String.append_assoc]

theorem print_docs_from_matched (render : α → String) (p : JSONPrinter)
    (hp : p.matched = true) (docs : List α) :
    print_docs render p docs
      = { matched := true, output := p.output ++ printDocsLoop render docs } := by
  cases docs with
  | nil =>
    cases p with
    | mk out m =>
      simp only at hp
      subst hp
      simp [print_docs, printDocsLoop]
  | cons x t => simp [print_docs, hp]

theorem runBatches_from_matched (render : α → String) :
    ∀ (batches : List (List α)) (p : JSONPrinter), p.matched = true →
      runBatches render p batches
        = { matched := true,
            output := p.output ++ printDocsLoop render batches.flatten } := by
  intro batches
  induction batches with
  | nil =>
    intro p hp
    cases p with
    | mk out m =>
      simp only at hp
      subst hp
      simp [runBatches, printDocsLoop]
  | cons b rest ih =>
    intro p hp
    simp only [runBatches]
    rw [print_docs_from_matched render p hp b, ih _ rfl]
    simp [printDocsLoop_append, String.append_assoc]

theorem run_output_shape (render : α → String) (d : α) (dr : List α)
    (batches : List (List α)) :
    (after_print (runBatches render (before_print JSONPrinter.new)
        ((d :: dr) :: batches))).output
      = "[\n" ++ (render d ++ (printDocsLoop render (dr ++ batches.flatten)
          ++ "\n]\n")) := by
  simp only [runBatches]
  have hpd : print_docs render (before_print JSONPrinter.new) (d :: dr)
      = { matched := true,
          output := ("" ++ "[") ++ "\n" ++ render d ++ printDocsLoop render dr } := by
    simp [print_docs, before_print, JSONPrinter.new]
  rw [hpd, runBatches_from_matched render batches _ rfl]
  simp [after_print, printDocsLoop_append, String.append_assoc]

theorem printDocsLoop_chain (f : α → Json) :
    ∀ (l : List α) (x : α),
      '\n' :: (serJson 0 (f x) ++
        ((printDocsLoop (fun a => String.mk (serJson 0 (f a))) l).data
          ++ '\n' :: ']' :: ['\n']))
      = itemsChain ['\n'] ['\n'] ((x :: l).map fun a => (['\n'], 0, f a)) := by
  intro l
  induction l with
  | nil =>
    intro x
    rw [List.map_cons, List.map_nil, itemsChain_singleton]
    simp [printDocsLoop]
  | cons y t ih =>
    intro x
    simp only [List.map_cons]
    rw [itemsChain_cons2]
    have ih2 := ih y
    simp only [List.map_cons] at ih2
    rw [← ih2]
    simp [printDocsLoop, String.data_append, String.append_assoc, List.append_assoc]

theorem itemsChain_head (post rest : List Char) (dd : Nat) (xv : Json)
    (t : List (List Char × Nat × Json)) :
    ∃ c r, itemsChain post rest (([], dd, xv) :: t) = c :: r ∧
      isWsChar c = false ∧ c ≠ ']' ∧ c ≠ rbraceChar := by
  obtain ⟨c, t0, hct, hws, h1, h2⟩ := serJson_head dd xv
  cases t with
  | nil =>
    refine ⟨c, t0 ++ (post ++ ']' :: rest), ?_, hws, h1, h2⟩
    rw [itemsChain_singleton, hct]
    rfl
  | cons a b =>
    refine ⟨c, t0 ++ ',' :: itemsChain post rest (a :: b), ?_, hws, h1, h2⟩
    rw [itemsChain_cons2, hct]
    rfl

theorem parse_stream (f : α → Json) (x : α) (l : List α) (s : String)
    (hs : s.data = '[' ::
      itemsChain ['\n'] ['\n'] ((x :: l).map fun a => (['\n'], 0, f a))) :
    parseJson s = some (Json.arr ((x :: l).map f)) := by
  have hlen : s.length = (itemsChain ['\n'] ['\n']
      ((x :: l).map fun a => (['\n'], 0, f a))).length + 1 := by
    have h0 : s.length = s.data.length := rfl
    rw [h0, hs]
    rfl
  obtain ⟨c0, r0, hhead, hws0, hne1, hne2⟩ :=
    itemsChain_head ['\n'] ['\n'] 0 (f x) (l.map fun a => (['\n'], 0, f a))
  have hv : parseValue (s.length + 1) s.data
      = some (Json.arr ((x :: l).map f), ['\n']) := by
    rw [hs, hlen]
    have hsw1 : skipWs ('[' :: itemsChain ['\n'] ['\n']
          ((x :: l).map fun a => (['\n'], 0, f a)))
        = '[' :: itemsChain ['\n'] ['\n']
            ((x :: l).map fun a => (['\n'], 0, f a)) :=
      skipWs_not_ws '[' _ (by decide)
    simp only [parseValue.eq_def, hsw1]
    rw [if_neg (by decide)]
    simp only [reduceIte]
    have hstrip : skipWs (itemsChain ['\n'] ['\n']
          ((x :: l).map fun a => (['\n'], 0, f a)))
        = itemsChain ['\n'] ['\n']
            (([], 0, f x) :: l.map fun a => (['\n'], 0, f a)) := by
      rw [List.map_cons]
      exact itemsChain_strip ['\n'] ['\n'] ['\n'] 0 (f x) _ (by decide)
    simp only [hstrip, hhead]
    rw [if_neg hne1]
    rw [← hhead]
    have hfuel : chainFuel (([], 0, f x) :: l.map fun a => (['\n'], 0, f a))
        ≤ (itemsChain ['\n'] ['\n']
            ((x :: l).map fun a => (['\n'], 0, f a))).length + 1 := by
      simp only [List.map_cons]
      have hh1 : chainFuel (([], 0, f x) :: l.map fun a => (['\n'], 0, f a))
          = chainFuel ((['\n'], 0, f x) :: l.map fun a => (['\n'], 0, f a)) :=
        chainFuel_anyHead [] ['\n'] 0 (f x) _
      have hh2 := chainFuel_le_chain_len ['\n'] ['\n']
        ((['\n'], 0, f x) :: l.map fun a => (['\n'], 0, f a))
      omega
    have hpi := (parser_roundtrip ((itemsChain ['\n'] ['\n']
        ((x :: l).map fun a => (['\n'], 0, f a))).length + 1)).2.1
      (([], 0, f x) :: l.map fun a => (['\n'], 0, f a)) ['\n'] ['\n'] []
      (by
        intro e he
        rcases List.mem_cons.mp he with h | h
        · subst h
          intro c hc
          simp at hc
        · obtain ⟨a, _, ha⟩ := List.mem_map.mp h
          intro c hc
          rw [← ha] at hc
          simp at hc
          subst hc
          decide)
      (by decide) (by simp) hfuel
    rw [hpi]
    simp [List.map_map]
  simp only [parseJson]
  rw [hv]
  simp [(by decide : skipWs ['\n'] = ([] : List Char))]

theorem runBatches_parse (f : α → Json) (d : α) (dr : List α)
    (batches : List (List α)) :
    parseJson (after_print (runBatches (fun a => String.mk (serJson 0 (f a)))
        (before_print JSONPrinter.new) ((d :: dr) :: batches))).output
      = some (Json.arr ((d :: (dr ++ batches.flatten)).map f)) := by
  apply parse_stream f d (dr ++ batches.flatten)
  rw [run_output_shape]
  rw [← printDocsLoop_chain f (dr ++ batches.flatten) d]
  have hd1 : "[\n".data = ['[', '\n'] := rfl
  have hd3 : "\n]\n".data = ['\n', ']', '\n'] := rfl
  simp [String.data_append, hd1, hd3, List.append_assoc]

/-- C1: two non-empty batches printed concurrently between one
`before_print`/`after_print` pair are serialized by the sink mutex,
which `print_docs` holds for the whole batch; the only observable
schedules are the two lock-acquisition orders.  In either order the
byte stream parses as a valid JSON array whose elements are exactly the
union of the two batches' records, each batch forming a contiguous run
in its own iteration order. -/
theorem concurrent_batches_valid_json (b1 b2 : List MatchJSON)
    (h1 : b1 ≠ []) (h2 : b2 ≠ []) :
    ∀ bs ∈ ([[b1, b2], [b2, b1]] : List (List (List MatchJSON))),
      (bs.flatten = b1 ++ b2 ∨ bs.flatten = b2 ++ b1) ∧
      parseJson (after_print (runBatches renderMatch
          (before_print JSONPrinter.new) bs)).output
        = some (Json.arr (bs.flatten.map MatchJSON.toJson)) := by
  have hrm : renderMatch
      = fun m : MatchJSON => String.mk (serJson 0 m.toJson) := rfl
  intro bs hbs
  obtain ⟨d1, r1, rfl⟩ := List.exists_cons_of_ne_nil h1
  obtain ⟨d2, r2, rfl⟩ := List.exists_cons_of_ne_nil h2
  simp only [List.mem_cons, List.mem_singleton] at hbs
  rcases hbs with rfl | rfl | hfalse
  · refine ⟨Or.inl (by simp), ?_⟩
    rw [hrm]
    simpa using runBatches_parse MatchJSON.toJson d1 r1 [d2 :: r2]
  · refine ⟨Or.inr (by simp), ?_⟩
    rw [hrm]
    simpa using runBatches_parse MatchJSON.toJson d2 r2 [d1 :: r1]
  · simp at hfalse

/-- Witness for C1: a concrete two-batch run in the first lock order
(hypotheses discharged, the parse evaluated through the theorem). -/
theorem concurrent_batches_valid_json_witness :
    ([sampleRecordPlain] : List MatchJSON) ≠ [] ∧
    ([sampleRecordDiff] : List MatchJSON) ≠ [] ∧
    (([[sampleRecordPlain], [sampleRecordDiff]] : List (List MatchJSON)) ∈
      ([[[sampleRecordPlain], [sampleRecordDiff]],
        [[sampleRecordDiff], [sampleRecordPlain]]] :
        List (List (List MatchJSON)))) ∧
    ((([[sampleRecordPlain], [sampleRecordDiff]] :
          List (List MatchJSON)).flatten
        = [sampleRecordPlain] ++ [sampleRecordDiff]
      ∨ ([[sampleRecordPlain], [sampleRecordDiff]] :
          List (List MatchJSON)).flatten
        = [sampleRecordDiff] ++ [sampleRecordPlain]) ∧
     parseJson (after_print (runBatches renderMatch (before_print JSONPrinter.new)
        [[sampleRecordPlain], [sampleRecordDiff]])).output
      = some (Json.arr (([[sampleRecordPlain], [sampleRecordDiff]] :
          List (List MatchJSON)).flatten.map MatchJSON.toJson))) :=
  ⟨by simp, by simp, by simp,
    concurrent_batches_valid_json [sampleRecordPlain] [sampleRecordDiff]
      (by simp) (by simp) [[sampleRecordPlain], [sampleRecordDiff]] (by simp)⟩

end AstGrep
